import Mathlib

/-!
Verification of the namecrane/hoist library against its specification.

The Go source is shallowly embedded: pure functions become Lean functions,
stateful code becomes explicit state passing, network calls become explicit
server oracles passed as parameters, and the requests a function issues are
collected in an explicit trace list.  Machine integers are modelled as
Int/Nat (no overflow is reachable in the quantities involved); Go float64
arithmetic (used once, in the chunk-count computation) is modelled exactly
as IEEE-754 binary64 round-to-nearest-even over the rationals.
-/

namespace Hoist

/-! ## Path parsing (client.go, ParsePath) -/

/-- Embeds Go strings.Trim(s, "/"): remove every leading and trailing '/'. -/
def trimSlashes (s : List Char) : List Char :=
  ((s.dropWhile (· = '/')).reverse.dropWhile (· = '/')).reverse

/-- Prepend a character to the first segment of a split (helper used to
state Go strings.Split recursively). -/
def consHead (c : Char) : List (List Char) → List (List Char)
  | [] => [[c]]
  | h :: t => (c :: h) :: t

/-- Embeds Go strings.Split(s, "/") for the single-character separator:
the empty string splits to one empty segment, and every separator
occurrence starts a new segment. -/
def splitSlash : List Char → List (List Char)
  | [] => [[]]
  | c :: cs => if c = '/' then [] :: splitSlash cs else consHead c (splitSlash cs)

/-- Embeds Go strings.Join(segments, "/"). -/
def joinSlash : List (List Char) → List Char
  | [] => []
  | [s] => s
  | s :: t => s ++ '/' :: joinSlash t

/-- Embeds client.ParsePath (client.go): trim leading and trailing '/',
split on '/'; with more than one segment the base is "/" plus all segments
but the last joined by "/", and the last segment is the leaf; otherwise the
base is "/" and the single segment is the leaf. -/
def ParsePath (path : String) : String × String :=
  let segments := splitSlash (trimSlashes path.toList)
  if 1 < segments.length then
    (String.mk ('/' :: joinSlash segments.dropLast), String.mk segments.getLast!)
  else
    ("/", String.mk segments.head!)

theorem splitSlash_ne_nil (s : List Char) : splitSlash s ≠ [] := by
  cases s with
  | nil => simp [splitSlash]
  | cons c cs =>
    simp only [splitSlash]
    split
    · simp
    · rcases h : splitSlash cs with _ | ⟨h₁, t⟩ <;> simp [consHead]

theorem joinSlash_splitSlash (s : List Char) : joinSlash (splitSlash s) = s := by
  induction s with
  | nil => rfl
  | cons c cs ih =>
    simp only [splitSlash]
    rcases h : splitSlash cs with _ | ⟨h₁, t⟩
    · exact absurd h (splitSlash_ne_nil cs)
    · rw [h] at ih
      by_cases hc : c = '/'
      · subst hc
        simp only [if_pos rfl, joinSlash]
        simpa using ih
      · rw [if_neg hc]
        cases t with
        | nil => simpa [consHead, joinSlash] using ih
        | cons t₁ t₂ => simpa [consHead, joinSlash] using ih

theorem splitSlash_no_slash (s : List Char) (h : '/' ∉ s) : splitSlash s = [s] := by
  induction s with
  | nil => rfl
  | cons c cs ih =>
    simp only [List.mem_cons, not_or] at h
    have hc : ¬c = '/' := fun hc => h.1 hc.symm
    simp [splitSlash, if_neg hc, ih h.2, consHead]

theorem splitSlash_append_last (p l : List Char) (hl : '/' ∉ l) :
    splitSlash (p ++ '/' :: l) = splitSlash p ++ [l] := by
  induction p with
  | nil => simp [splitSlash, splitSlash_no_slash l hl]
  | cons c cs ih =>
    simp only [List.cons_append, splitSlash]
    by_cases hc : c = '/'
    · simp [hc, ih]
    · simp only [if_neg hc, List.append_eq, ih]
      rcases h : splitSlash cs with _ | ⟨h₁, t⟩
      · exact absurd h (splitSlash_ne_nil cs)
      · simp [consHead]

theorem dropWhile_slash_eq_self {t : List Char} (h : t.head? ≠ some '/') :
    t.dropWhile (· = '/') = t := by
  cases t with
  | nil => rfl
  | cons c cs =>
    have hc : ¬c = '/' := fun hc => h (by simp [hc])
    simp [List.dropWhile, hc]

theorem trimSlashes_eq_self {t : List Char}
    (h1 : t.head? ≠ some '/') (h2 : t.getLast? ≠ some '/') :
    trimSlashes t = t := by
  unfold trimSlashes
  rw [dropWhile_slash_eq_self h1, dropWhile_slash_eq_self (by rwa [List.head?_reverse]),
    List.reverse_reverse]

theorem trimSlashes_cons_slash (x : List Char) :
    trimSlashes ('/' :: x) = trimSlashes x := by
  simp [trimSlashes, List.dropWhile_cons]

theorem trimSlashes_concat_slash (x : List Char) :
    trimSlashes (x ++ ['/']) = trimSlashes x := by
  unfold trimSlashes
  rw [List.dropWhile_append]
  by_cases h : (x.dropWhile (· = '/')).isEmpty
  · rw [if_pos h, List.isEmpty_iff.1 h]
    simp [List.dropWhile]
  · rw [if_neg h]
    simp [List.dropWhile_cons]

/-- Claim C7: ParsePath trims leading and trailing slashes and splits on
'/': a path of the form p/l with l a slash-free final segment parses to
parent "/" ++ p and leaf l; a slash-free input (the one-segment and the
empty case) parses to parent "/" with the input itself as leaf; leading
and trailing slashes are irrelevant; and the three concrete examples of
the specification hold. -/
theorem c7_parsePath_contract :
    (∀ p l : List Char, p ≠ [] → p.head? ≠ some '/' → p.getLast? ≠ some '/' →
      l ≠ [] → '/' ∉ l →
      ParsePath (String.mk (p ++ '/' :: l)) = (String.mk ('/' :: p), String.mk l)) ∧
    (∀ l : List Char, '/' ∉ l → ParsePath (String.mk l) = ("/", String.mk l)) ∧
    (∀ s : String, ParsePath (String.mk ('/' :: s.toList)) = ParsePath s) ∧
    (∀ s : String, ParsePath (String.mk (s.toList ++ ['/'])) = ParsePath s) ∧
    ParsePath "/some/full/path" = ("/some/full", "path") ∧
    ParsePath "/some/full/path/" = ("/some/full", "path") ∧
    ParsePath "/something" = ("/", "something") ∧
    ParsePath "" = ("/", "") := by
  refine ⟨?_, ?_, ?_, ?_, by decide, by decide, by decide, by decide⟩
  · intro p l hp h1 h2 hl0 hl
    have hhead : (p ++ '/' :: l).head? ≠ some '/' := by
      cases p with
      | nil => exact absurd rfl hp
      | cons c cs => simpa using h1
    have hlast : (p ++ '/' :: l).getLast? ≠ some '/' := by
      rw [List.getLast?_append_cons]
      cases l with
      | nil => exact absurd rfl hl0
      | cons d ds =>
        rw [List.getLast?_cons_cons]
        intro h
        rcases List.getLast?_eq_some_iff.1 h with ⟨ys, hys⟩
        exact hl (by simp [hys])
    have hsplit : splitSlash (trimSlashes (String.mk (p ++ '/' :: l)).toList)
        = splitSlash p ++ [l] := by
      rw [show (String.mk (p ++ '/' :: l)).toList = p ++ '/' :: l from rfl,
        trimSlashes_eq_self hhead hlast, splitSlash_append_last p l hl]
    have hlen : 1 < (splitSlash p ++ [l]).length := by
      have := List.length_pos.2 (splitSlash_ne_nil p)
      simp only [List.length_append, List.length_singleton]
      omega
    simp only [ParsePath, hsplit, if_pos hlen, List.dropLast_concat,
      joinSlash_splitSlash, List.getLast!_of_getLast? (List.getLast?_concat _)]
  · intro l hl
    have hhead : l.head? ≠ some '/' := by
      cases l with
      | nil => simp
      | cons c cs =>
        simp only [List.head?_cons, ne_eq, Option.some_inj]
        intro h
        exact hl (by simp [h])
    have hlast : l.getLast? ≠ some '/' := by
      intro h
      rcases List.getLast?_eq_some_iff.1 h with ⟨ys, hys⟩
      exact hl (by simp [hys])
    have hsplit : splitSlash (trimSlashes l) = [l] := by
      rw [trimSlashes_eq_self hhead hlast, splitSlash_no_slash l hl]
    simp [ParsePath, hsplit]
  · intro s
    simp only [ParsePath]
    rw [show (String.mk ('/' :: s.toList)).toList = '/' :: s.toList from rfl,
      trimSlashes_cons_slash]
  · intro s
    simp only [ParsePath]
    rw [show (String.mk (s.toList ++ ['/'])).toList = s.toList ++ ['/'] from rfl,
      trimSlashes_concat_slash]

/-! ## Data model (files.go: File, Folder) -/

/-- Embeds the File wire shape (files.go): id, fileName, type, size,
dateAdded, folderPath.  Timestamps are modelled as integers. -/
structure File where
  id : String
  name : String
  type : String
  size : Int
  dateAdded : Int
  folderPath : String
deriving DecidableEq

/-- Embeds the Folder wire shape (files.go): name, path, size, version,
count, subfolders, files.  The recursive subfolder list makes this a
nested inductive. -/
inductive Folder where
  | mk (name path : String) (size : Int) (version : String) (count : Int)
       (subfolders : List Folder) (files : List File)

def Folder.name : Folder → String
  | .mk n _ _ _ _ _ _ => n

def Folder.path : Folder → String
  | .mk _ p _ _ _ _ _ => p

def Folder.subfolders : Folder → List Folder
  | .mk _ _ _ _ _ subs _ => subs

def Folder.files : Folder → List File
  | .mk _ _ _ _ _ _ fs => fs

/-- Embeds Folder.Flatten (files.go): the folder itself followed by the
flattening of every subfolder, in order. -/
def Folder.Flatten : Folder → List Folder
  | .mk n p s v c subs fs =>
    .mk n p s v c subs fs :: (subs.attach.map fun sub => Folder.Flatten sub.1).flatten
decreasing_by
  have := List.sizeOf_lt_of_mem sub.2
  simp only [Folder.mk.sizeOf_spec]
  omega

/-- Embeds Folder.Subfolder (files.go): the first subfolder whose name
matches, if any. -/
def Folder.Subfolder (f : Folder) (name : String) : Option Folder :=
  f.subfolders.find? (fun folder => folder.name == name)

theorem Folder.Flatten_head (f : Folder) :
    ∃ rest, Folder.Flatten f = f :: rest := by
  cases f
  exact ⟨_, by rw [Folder.Flatten]⟩

/-- Error taxonomy of the library (client.go, auth.go, files.go).
outOfRange stands for the Go runtime panic on indexing an empty slice;
it is provably unreachable in the embedded code paths. -/
inductive Err where
  | noFile
  | noFolder
  | noToken
  | expiredRefreshToken
  | unexpectedType
  | unexpectedStatus (code : Int)
  | noResponse
  | decodeFailure
  | outOfRange
  | chunkFailed (chunk : Int) (status : Int)
  | wrapped (context : String) (e : Err)
  | message (s : String)
deriving DecidableEq

/-- The backend as an oracle: each field is one remote endpoint as the
corresponding client method observes it, with transport, status and
decoding failures already folded into the Except error. -/
structure Server where
  getFolders : Except Err Folder
  getFolder : String → Except Err Folder
  createFolder : String → String → Except Err Folder
  moveFolder : String → String → String → Except Err Unit
  renameFile : String → String → Except Err Unit

/-- Embeds client.GetFolders (files.go): fetch the root folder and return
its flattening, so the root itself is always the first element. -/
def Client.GetFolders (srv : Server) : Except Err (List Folder) :=
  match srv.getFolders with
  | .error e => .error e
  | .ok root => .ok root.Flatten

/-- Embeds client.GetFolder (files.go): fetch one folder by path. -/
def Client.GetFolder (srv : Server) (folder : String) : Except Err Folder :=
  srv.getFolder folder

/-- The two lookup loops at the end of client.Find (files.go): scan the
file list for a name match first, then the subfolder list, and fail with
ErrNoFile when neither matches. -/
def findScan (folder : Folder) (name : String) :
    Except Err (Option Folder × Option File) :=
  match folder.files.find? (fun f => f.name == name) with
  | some f => .ok (none, some f)
  | none =>
    match folder.subfolders.find? (fun sub => sub.name == name) with
    | some sub => .ok (some sub, none)
    | none => .error .noFile

/-- Embeds client.Find (files.go): parse the path, resolve the base folder
(root via GetFolders, otherwise GetFolder), return the folder itself for an
empty leaf at root, and otherwise run the two lookup loops. -/
def Client.Find (srv : Server) (file : String) :
    Except Err (Option Folder × Option File) :=
  let base := (ParsePath file).1
  let name := (ParsePath file).2
  if base = "" ∨ base = "/" then
    match Client.GetFolders srv with
    | .error e => .error e
    | .ok [] => .error .outOfRange
    | .ok (folder :: _) =>
      if name = "" then .ok (some folder, none) else findScan folder name
  else
    match Client.GetFolder srv base with
    | .error e => .error e
    | .ok folder => findScan folder name

def xFile : File :=
  { id := "f1", name := "x.txt", type := "", size := 3, dateAdded := 0,
    folderPath := "/A" }

def folderA : Folder := .mk "A" "/A" 3 "" 1 [] [xFile]

def rootFolder : Folder := .mk "" "/" 3 "" 1 [folderA] []

/-- A concrete backend holding the folder tree of the specification's
resolve example: root contains folder A, and A contains file x.txt. -/
def srvFind : Server :=
  { getFolders := .ok rootFolder
    getFolder := fun p => if p = "/A" then .ok folderA else .error .noFolder
    createFolder := fun _ _ => .error .noFolder
    moveFolder := fun _ _ _ => .ok ()
    renameFile := fun _ _ => .ok () }

/-- Find resolves a non-root base through GetFolder and then runs the two
lookup loops on the fetched folder. -/
theorem find_nonroot (srv : Server) (path : String) (folder : Folder)
    (h1 : (ParsePath path).1 ≠ "") (h2 : (ParsePath path).1 ≠ "/")
    (h3 : srv.getFolder (ParsePath path).1 = .ok folder) :
    Client.Find srv path = findScan folder (ParsePath path).2 := by
  simp only [Client.Find,
    if_neg (by tauto : ¬((ParsePath path).1 = "" ∨ (ParsePath path).1 = "/"))]
  simp [Client.GetFolder, h3]

/-- Find resolves a root base through GetFolders, takes the first returned
folder (the root itself), and for a nonempty leaf runs the two lookup
loops on it. -/
theorem find_root (srv : Server) (path : String) (root : Folder)
    (h1 : srv.getFolders = .ok root)
    (h2 : (ParsePath path).1 = "" ∨ (ParsePath path).1 = "/")
    (h3 : (ParsePath path).2 ≠ "") :
    Client.Find srv path = findScan root (ParsePath path).2 := by
  obtain ⟨rest, hf⟩ := Folder.Flatten_head root
  simp only [Client.Find, if_pos h2, Client.GetFolders, h1, hf, if_neg h3]

/-- Claim C3: Find resolves the parent folder (root via GetFolders,
otherwise GetFolder) and then scans the file list first and the subfolder
list second; a file match wins over a folder match; no match in either
list yields ErrNoFile; on success exactly one of the folder/file results
is present; and the specification's concrete resolve examples hold. -/
theorem c3_find_contract :
    (∀ (srv : Server) (path : String) (folder : Folder),
      (ParsePath path).1 ≠ "" → (ParsePath path).1 ≠ "/" →
      srv.getFolder (ParsePath path).1 = .ok folder →
      Client.Find srv path = findScan folder (ParsePath path).2) ∧
    (∀ (srv : Server) (path : String) (root : Folder),
      srv.getFolders = .ok root →
      ((ParsePath path).1 = "" ∨ (ParsePath path).1 = "/") →
      (ParsePath path).2 ≠ "" →
      Client.Find srv path = findScan root (ParsePath path).2) ∧
    (∀ (folder : Folder) (name : String),
      (∃ f ∈ folder.files, f.name = name) →
      ∃ f ∈ folder.files, f.name = name ∧
        findScan folder name = .ok (none, some f)) ∧
    (∀ (folder : Folder) (name : String) (sub : Folder),
      folder.files.find? (fun x => x.name == name) = none →
      folder.subfolders.find? (fun x => x.name == name) = some sub →
      findScan folder name = .ok (some sub, none)) ∧
    (∀ (folder : Folder) (name : String),
      folder.files.find? (fun x => x.name == name) = none →
      folder.subfolders.find? (fun x => x.name == name) = none →
      findScan folder name = .error .noFile) ∧
    (∀ (srv : Server) (path : String) (r : Option Folder × Option File),
      Client.Find srv path = .ok r →
      (r.1 = none ∧ ∃ f, r.2 = some f) ∨ (r.2 = none ∧ ∃ d, r.1 = some d)) ∧
    Client.Find srvFind "/A/x.txt" = .ok (none, some xFile) ∧
    Client.Find srvFind "/A" = .ok (some folderA, none) ∧
    Client.Find srvFind "/missing" = .error .noFile := by
  have hscan : ∀ (folder : Folder) (name : String)
      (r : Option Folder × Option File), findScan folder name = .ok r →
      (r.1 = none ∧ ∃ f, r.2 = some f) ∨ (r.2 = none ∧ ∃ d, r.1 = some d) := by
    intro folder name r h
    unfold findScan at h
    rcases hf : folder.files.find? (fun x => x.name == name) with _ | f
    · rw [hf] at h
      rcases hd : folder.subfolders.find? (fun x => x.name == name) with _ | d
      · rw [hd] at h
        exact absurd h (by simp)
      · rw [hd] at h
        cases h
        exact Or.inr ⟨rfl, d, rfl⟩
    · rw [hf] at h
      cases h
      exact Or.inl ⟨rfl, f, rfl⟩
  refine ⟨find_nonroot, find_root, ?_, ?_, ?_, ?_, ?_, ?_, ?_⟩
  · intro folder name hex
    have hsome : (folder.files.find? (fun x => x.name == name)).isSome := by
      rw [List.find?_isSome]
      rcases hex with ⟨f, hf, hn⟩
      exact ⟨f, hf, by simp [hn]⟩
    rcases hg : folder.files.find? (fun x => x.name == name) with _ | g
    · rw [hg] at hsome
      cases hsome
    · refine ⟨g, List.mem_of_find?_eq_some hg, ?_, ?_⟩
      · have := List.find?_some hg
        simpa using this
      · simp [findScan, hg]
  · intro folder name sub h1 h2
    simp [findScan, h1, h2]
  · intro folder name h1 h2
    simp [findScan, h1, h2]
  · intro srv path r h
    simp only [Client.Find] at h
    by_cases hb : (ParsePath path).1 = "" ∨ (ParsePath path).1 = "/"
    · rw [if_pos hb] at h
      rcases hg : Client.GetFolders srv with e | (_ | ⟨folder, rest⟩) <;>
        simp only [hg] at h
      · exact Except.noConfusion h
      · exact Except.noConfusion h
      · by_cases hn : (ParsePath path).2 = ""
        · rw [if_pos hn] at h
          cases h
          exact Or.inr ⟨rfl, _, rfl⟩
        · rw [if_neg hn] at h
          exact hscan _ _ _ h
    · rw [if_neg hb] at h
      rcases hg : Client.GetFolder srv (ParsePath path).1 with e | folder <;>
        simp only [hg] at h
      · exact Except.noConfusion h
      · exact hscan _ _ _ h
  · rw [find_nonroot srvFind "/A/x.txt" folderA (by decide) (by decide) rfl]
    rfl
  · rw [find_root srvFind "/A" rootFolder rfl (by decide) (by decide)]
    rfl
  · rw [find_root srvFind "/missing" rootFolder rfl (by decide) (by decide)]
    rfl

/-! ### IEEE-754 binary64 model

ChunkedUpload (files.go) computes totalChunks as
int(math.Ceil(float64(fileSize) / maxChunkSize)).  The float64 arithmetic
is modelled exactly: a positive binary64 value is a dyadic rational
m * 2 ^ s, conversion and division round to nearest with ties to even,
math.Ceil is exact on the magnitudes involved, and the int conversion of
an integral value is exact.  The model functions are pure integer
computations, so the kernel can evaluate them on concrete inputs. -/

/-- Fuel-bounded floor of log2; with fuel at least n the result is exact. -/
def log2fuel : ℕ → ℕ → ℕ
  | 0, _ => 0
  | fuel + 1, n => if n < 2 then 0 else log2fuel fuel (n / 2) + 1

/-- Floor of log2 of a positive natural number. -/
def log2p (n : ℕ) : ℕ := log2fuel n n

theorem log2fuel_spec : ∀ (fuel n : ℕ), 0 < n → n ≤ fuel →
    2 ^ log2fuel fuel n ≤ n ∧ n < 2 ^ (log2fuel fuel n + 1) := by
  intro fuel
  induction fuel with
  | zero => intro n h1 h2; omega
  | succ f ih =>
    intro n h1 h2
    by_cases hn : n < 2
    · simp only [log2fuel, if_pos hn]
      constructor
      · simpa using h1
      · simpa using hn
    · simp only [log2fuel, if_neg hn]
      have hdpos : 0 < n / 2 := Nat.div_pos (by omega) (by norm_num)
      have hdle : n / 2 ≤ f := by omega
      obtain ⟨ha, hb⟩ := ih (n / 2) hdpos hdle
      constructor
      · calc 2 ^ (log2fuel f (n / 2) + 1) = 2 * 2 ^ log2fuel f (n / 2) := by ring
        _ ≤ 2 * (n / 2) := by omega
        _ ≤ n := by omega
      · calc n ≤ 2 * (n / 2) + 1 := by omega
        _ < 2 * 2 ^ (log2fuel f (n / 2) + 1) := by omega
        _ = 2 ^ (log2fuel f (n / 2) + 1 + 1) := by ring

theorem log2p_spec (n : ℕ) (h : 0 < n) :
    2 ^ log2p n ≤ n ∧ n < 2 ^ (log2p n + 1) :=
  log2fuel_spec n n h le_rfl

/-- Decides 2 ^ e ≤ a / b over the rationals by cross-multiplication. -/
def le2pow (e : ℤ) (a b : ℕ) : Bool :=
  if 0 ≤ e then b * 2 ^ e.toNat ≤ a else b ≤ a * 2 ^ (-e).toNat

/-- Floor of log2 of the positive rational a / b (the binary64 exponent). -/
def ePair (a b : ℕ) : ℤ :=
  let e0 : ℤ := (log2p a : ℤ) - (log2p b : ℤ)
  if le2pow e0 a b then e0 else e0 - 1

theorem le2pow_iff (e : ℤ) (a b : ℕ) (hb : 0 < b) :
    le2pow e a b = true ↔ (2 : ℚ) ^ e ≤ (a : ℚ) / (b : ℚ) := by
  have hbq : (0 : ℚ) < (b : ℚ) := by exact_mod_cast hb
  unfold le2pow
  by_cases he : 0 ≤ e
  · rw [if_pos he, decide_eq_true_eq]
    rw [show e = (e.toNat : ℤ) by omega, zpow_natCast]
    rw [le_div_iff₀ hbq]
    constructor
    · intro h
      calc (2:ℚ) ^ e.toNat * b = ((b * 2 ^ e.toNat : ℕ) : ℚ) := by push_cast; ring
      _ ≤ (a : ℚ) := by exact_mod_cast h
    · intro h
      have : ((b * 2 ^ e.toNat : ℕ) : ℚ) ≤ (a : ℚ) := by
        calc ((b * 2 ^ e.toNat : ℕ) : ℚ) = (2:ℚ) ^ e.toNat * b := by push_cast; ring
        _ ≤ (a : ℚ) := h
      exact_mod_cast this
  · rw [if_neg he, decide_eq_true_eq]
    have hk : e = -((-e).toNat : ℤ) := by omega
    rw [le_div_iff₀ hbq]
    have h2 : (0:ℚ) < (2:ℚ) ^ (-e).toNat := by positivity
    constructor
    · intro h
      have hq : (b : ℚ) ≤ (a : ℚ) * 2 ^ (-e).toNat := by exact_mod_cast h
      rw [hk, zpow_neg, zpow_natCast]
      rw [inv_mul_le_iff₀ h2]
      calc (b : ℚ) ≤ (a : ℚ) * 2 ^ (-e).toNat := hq
      _ = 2 ^ (-e).toNat * a := by ring
    · intro h
      rw [hk, zpow_neg, zpow_natCast, inv_mul_le_iff₀ h2] at h
      have : (b : ℚ) ≤ (a : ℚ) * 2 ^ (-e).toNat := by
        calc (b : ℚ) ≤ 2 ^ (-e).toNat * a := h
        _ = (a : ℚ) * 2 ^ (-e).toNat := by ring
      exact_mod_cast this

theorem ePair_spec (a b : ℕ) (ha : 0 < a) (hb : 0 < b) :
    (2 : ℚ) ^ ePair a b ≤ (a : ℚ) / (b : ℚ) ∧
    (a : ℚ) / (b : ℚ) < (2 : ℚ) ^ (ePair a b + 1) := by
  have hbq : (0 : ℚ) < (b : ℚ) := by exact_mod_cast hb
  obtain ⟨ha1, ha2⟩ := log2p_spec a ha
  obtain ⟨hb1, hb2⟩ := log2p_spec b hb
  set e0 : ℤ := (log2p a : ℤ) - (log2p b : ℤ) with he0
  unfold ePair
  by_cases h : le2pow e0 a b
  · rw [if_pos h]
    refine ⟨(le2pow_iff e0 a b hb).1 h, ?_⟩
    rw [div_lt_iff₀ hbq]
    calc (a : ℚ) < 2 ^ (log2p a + 1) := by exact_mod_cast ha2
    _ = 2 ^ ((log2p a : ℤ) + 1) := by rw [← zpow_natCast]; push_cast; ring_nf
    _ ≤ 2 ^ (e0 + 1) * b := by
        rw [he0]
        have hble : (2:ℚ) ^ (log2p b : ℤ) ≤ (b:ℚ) := by
          rw [zpow_natCast]; exact_mod_cast hb1
        calc (2:ℚ) ^ ((log2p a : ℤ) + 1)
            = 2 ^ ((log2p a : ℤ) - (log2p b : ℤ) + 1) * 2 ^ (log2p b : ℤ) := by
              rw [← zpow_add₀ (by norm_num : (2:ℚ) ≠ 0)]; ring_nf
        _ ≤ 2 ^ ((log2p a : ℤ) - (log2p b : ℤ) + 1) * b := by
              have : (0:ℚ) < 2 ^ ((log2p a : ℤ) - (log2p b : ℤ) + 1) := by positivity
              nlinarith
  · rw [if_neg h]
    have hlt : (a : ℚ) / (b : ℚ) < 2 ^ e0 := by
      by_contra hcon
      exact h ((le2pow_iff e0 a b hb).2 (le_of_not_lt hcon))
    refine ⟨?_, by simpa using hlt⟩
    rw [le_div_iff₀ hbq]
    have haq : (2:ℚ) ^ (log2p a : ℤ) ≤ (a:ℚ) := by
      rw [zpow_natCast]; exact_mod_cast ha1
    have hbq2 : (b:ℚ) < 2 ^ ((log2p b : ℤ) + 1) := by
      rw [show ((log2p b : ℤ) + 1) = ((log2p b + 1 : ℕ) : ℤ) by push_cast; ring, zpow_natCast]
      exact_mod_cast hb2
    have hpos : (0:ℚ) < 2 ^ (e0 - 1) := by positivity
    calc (2:ℚ) ^ (e0 - 1) * b ≤ 2 ^ (e0 - 1) * 2 ^ ((log2p b : ℤ) + 1) := by nlinarith
    _ = 2 ^ (log2p a : ℤ) := by
        rw [← zpow_add₀ (by norm_num : (2:ℚ) ≠ 0), he0]; ring_nf
    _ ≤ (a : ℚ) := haq


/-- Round num / den to the nearest integer, ties to even (the binary64
significand rounding). -/
def roundMantissa (num den : ℕ) : ℕ :=
  let d := num / den
  let r := num % den
  if 2 * r < den then d
  else if den < 2 * r then d + 1
  else if d % 2 = 0 then d else d + 1

theorem roundMantissa_eq (num den : ℕ) :
    roundMantissa num den =
      if 2 * (num % den) < den then num / den
      else if den < 2 * (num % den) then num / den + 1
      else if num / den % 2 = 0 then num / den else num / den + 1 := rfl

theorem roundMantissa_err (num den : ℕ) (hd : 0 < den) :
    |(roundMantissa num den : ℚ) - (num : ℚ) / (den : ℚ)| ≤ 1 / 2 := by
  have hdq : (0 : ℚ) < (den : ℚ) := by exact_mod_cast hd
  obtain ⟨d, r, hdr, hrlt, hnum⟩ :
      ∃ d r : ℕ, num / den = d ∧ r < den ∧ num = den * d + r :=
    ⟨num / den, num % den, rfl, Nat.mod_lt _ hd, (Nat.div_add_mod num den).symm⟩
  have hmod : num % den = r := by
    rw [hnum, Nat.mul_add_mod, Nat.mod_eq_of_lt hrlt]
  have key : (num : ℚ) = (den : ℚ) * d + r := by exact_mod_cast hnum
  have hq : (num : ℚ) / den = (d : ℚ) + (r : ℚ) / den := by
    rw [div_eq_iff hdq.ne', add_mul, div_mul_cancel₀ _ hdq.ne']
    linear_combination key
  have hrnn : (0:ℚ) ≤ (r : ℚ) / den := by positivity
  rw [hq, roundMantissa_eq, hdr, hmod]
  by_cases h1 : 2 * r < den
  · rw [if_pos h1]
    have hlt : (r : ℚ) / den < 1 / 2 := by
      rw [div_lt_div_iff₀ hdq (by norm_num : (0:ℚ) < 2)]
      have h1q : (2:ℚ) * r < den := by exact_mod_cast h1
      linarith
    rw [show (d : ℚ) - ((d : ℚ) + (r : ℚ) / den) = -((r : ℚ) / den) by ring,
      abs_neg, abs_of_nonneg hrnn]
    linarith
  · rw [if_neg h1]
    by_cases h2 : den < 2 * r
    · rw [if_pos h2]
      have hgt : 1 / 2 < (r : ℚ) / den := by
        rw [div_lt_div_iff₀ (by norm_num : (0:ℚ) < 2) hdq]
        have h2q : (den : ℚ) < 2 * r := by exact_mod_cast h2
        linarith
      have hle1 : (r : ℚ) / den ≤ 1 := by
        rw [div_le_one hdq]
        exact_mod_cast hrlt.le
      rw [show ((d + 1 : ℕ) : ℚ) - ((d : ℚ) + (r : ℚ) / den)
          = 1 - (r : ℚ) / den by push_cast; ring,
        abs_of_nonneg (by linarith)]
      linarith
    · rw [if_neg h2]
      have heq : (r : ℚ) / den = 1 / 2 := by
        rw [div_eq_div_iff hdq.ne' (by norm_num : (2:ℚ) ≠ 0)]
        have h3q : (2:ℚ) * r = den := by
          exact_mod_cast le_antisymm (le_of_not_lt h2) (le_of_not_lt h1)
        linarith
      by_cases h3 : d % 2 = 0
      · rw [if_pos h3, heq,
          show (d : ℚ) - ((d : ℚ) + 1 / 2) = -(1/2) by ring,
          abs_neg, abs_of_nonneg (by norm_num)]
      · rw [if_neg h3, heq,
          show ((d + 1 : ℕ) : ℚ) - ((d : ℚ) + 1 / 2) = 1/2 by push_cast; ring,
          abs_of_nonneg (by norm_num)]

theorem roundMantissa_exact (num den : ℕ) (hd : 0 < den) (hdvd : den ∣ num) :
    (roundMantissa num den : ℚ) = (num : ℚ) / (den : ℚ) := by
  have hr : num % den = 0 := by
    obtain ⟨c, rfl⟩ := hdvd
    simp [Nat.mul_mod_right]
  rw [show roundMantissa num den = num / den by
    rw [roundMantissa_eq, hr]
    simp [hd]]
  exact Nat.cast_div hdvd (by exact_mod_cast hd.ne')

/-- Round the positive rational a / b to the nearest binary64 value,
returned as a mantissa/exponent pair (value = mantissa * 2 ^ exponent). -/
def roundPair (a b : ℕ) : ℕ × ℤ :=
  let s := ePair a b - 52
  if 0 ≤ s then (roundMantissa a (b * 2 ^ s.toNat), s)
  else (roundMantissa (a * 2 ^ (-s).toNat) b, s)

/-- Rational value of a mantissa/exponent pair. -/
def dyVal (p : ℕ × ℤ) : ℚ := (p.1 : ℚ) * (2 : ℚ) ^ p.2

theorem zpow_toNat_of_nonneg {s : ℤ} (h : 0 ≤ s) :
    ((2 : ℚ) ^ s.toNat : ℚ) = (2 : ℚ) ^ s := by
  rw [show s = (s.toNat : ℤ) by omega, zpow_natCast, Int.toNat_natCast]

theorem roundPair_err (a b : ℕ) (_ha : 0 < a) (hb : 0 < b) :
    |dyVal (roundPair a b) - (a : ℚ) / b| ≤ (2 : ℚ) ^ (ePair a b - 53) := by
  have hbq : (0 : ℚ) < (b : ℚ) := by exact_mod_cast hb
  set s : ℤ := ePair a b - 52 with hs
  have h2s : (0 : ℚ) < (2 : ℚ) ^ s := by positivity
  have hhalf : (2 : ℚ) ^ (ePair a b - 53) = (2 : ℚ) ^ s * (1 / 2) := by
    rw [show ePair a b - 53 = s - 1 by omega, zpow_sub₀ (by norm_num : (2:ℚ) ≠ 0)]
    ring
  by_cases h : 0 ≤ s
  · have hbp : 0 < b * 2 ^ s.toNat := by positivity
    have herr := roundMantissa_err a (b * 2 ^ s.toNat) hbp
    have hcast : ((b * 2 ^ s.toNat : ℕ) : ℚ) = (b : ℚ) * (2 : ℚ) ^ s := by
      push_cast
      rw [zpow_toNat_of_nonneg h]
    rw [hcast] at herr
    have hval : dyVal (roundPair a b) =
        (roundMantissa a (b * 2 ^ s.toNat) : ℚ) * (2 : ℚ) ^ s := by
      simp only [roundPair, ← hs, if_pos h, dyVal]
    rw [hval]
    have hdiv : (a : ℚ) / ((b : ℚ) * (2 : ℚ) ^ s) * (2 : ℚ) ^ s = (a : ℚ) / b := by
      field_simp
      ring
    calc |(roundMantissa a (b * 2 ^ s.toNat) : ℚ) * (2 : ℚ) ^ s - (a : ℚ) / b|
        = |(roundMantissa a (b * 2 ^ s.toNat) : ℚ) - (a : ℚ) / ((b : ℚ) * (2 : ℚ) ^ s)|
            * |(2 : ℚ) ^ s| := by
          rw [← abs_mul, sub_mul, hdiv]
    _ ≤ (1 / 2) * (2 : ℚ) ^ s := by
          rw [abs_of_pos h2s]
          exact mul_le_mul_of_nonneg_right herr (le_of_lt h2s)
    _ = (2 : ℚ) ^ (ePair a b - 53) := by rw [hhalf]; ring
  · have hk : (0 : ℤ) ≤ -s := by omega
    have herr := roundMantissa_err (a * 2 ^ (-s).toNat) b hb
    have hcast : ((a * 2 ^ (-s).toNat : ℕ) : ℚ) = (a : ℚ) * (2 : ℚ) ^ (-s) := by
      push_cast
      rw [zpow_toNat_of_nonneg hk]
    rw [hcast] at herr
    have hval : dyVal (roundPair a b) =
        (roundMantissa (a * 2 ^ (-s).toNat) b : ℚ) * (2 : ℚ) ^ s := by
      simp only [roundPair, ← hs, if_neg h, dyVal]
    rw [hval]
    have hdiv : (a : ℚ) * (2 : ℚ) ^ (-s) / (b : ℚ) * (2 : ℚ) ^ s = (a : ℚ) / b := by
      rw [zpow_neg]
      field_simp
      ring
    calc |(roundMantissa (a * 2 ^ (-s).toNat) b : ℚ) * (2 : ℚ) ^ s - (a : ℚ) / b|
        = |(roundMantissa (a * 2 ^ (-s).toNat) b : ℚ) - (a : ℚ) * (2 : ℚ) ^ (-s) / (b : ℚ)|
            * |(2 : ℚ) ^ s| := by
          rw [← abs_mul, sub_mul, hdiv]
    _ ≤ (1 / 2) * (2 : ℚ) ^ s := by
          rw [abs_of_pos h2s]
          exact mul_le_mul_of_nonneg_right herr (le_of_lt h2s)
    _ = (2 : ℚ) ^ (ePair a b - 53) := by rw [hhalf]; ring

theorem roundPair_exact (a b : ℕ) (ha : 0 < a) (hb : 0 < b) (hdvd : b ∣ a)
    (hle : a / b ≤ 2 ^ 53) : dyVal (roundPair a b) = (a : ℚ) / b := by
  have hbq : (0 : ℚ) < (b : ℚ) := by exact_mod_cast hb
  have hvq : ((a / b : ℕ) : ℚ) = (a : ℚ) / b := Nat.cast_div hdvd hbq.ne'
  have hv : 0 < a / b := Nat.div_pos (Nat.le_of_dvd ha hdvd) hb
  set s : ℤ := ePair a b - 52 with hs
  by_cases h : 0 ≤ s
  · -- here 52 ≤ ePair a b, so a / b is within a factor 2 of 2 ^ 53
    obtain ⟨hlo, hhi⟩ := ePair_spec a b ha hb
    have hlo2 : 2 ^ (ePair a b).toNat ≤ a / b := by
      have : ((2 ^ (ePair a b).toNat : ℕ) : ℚ) ≤ ((a / b : ℕ) : ℚ) := by
        rw [hvq]
        calc ((2 ^ (ePair a b).toNat : ℕ) : ℚ) = (2 : ℚ) ^ (ePair a b).toNat := by
              push_cast
              ring
        _ = (2 : ℚ) ^ ePair a b := zpow_toNat_of_nonneg (by omega)
        _ ≤ (a : ℚ) / b := hlo
      exact_mod_cast this
    have hse : s ≤ 1 := by
      by_contra hcon
      have h54 : (2 : ℕ) ^ 54 ≤ 2 ^ (ePair a b).toNat :=
        Nat.pow_le_pow_right (by norm_num) (by omega)
      have := hle
      omega
    have hdvd2 : 2 ^ s.toNat ∣ a / b := by
      rcases (by omega : s = 0 ∨ s = 1) with h0 | h1
      · rw [h0]
        simp
      · rw [h1]
        have hv53 : a / b = 2 ^ 53 := by
          have : (2:ℕ) ^ 53 ≤ 2 ^ (ePair a b).toNat :=
            Nat.pow_le_pow_right (by norm_num) (by omega)
          omega
        rw [hv53]
        exact ⟨2 ^ 52, by norm_num⟩
    have hdvd3 : b * 2 ^ s.toNat ∣ a := by
      obtain ⟨c, hc⟩ := hdvd2
      obtain ⟨w, hw⟩ := hdvd
      refine ⟨c, ?_⟩
      have : a / b = w := by rw [hw, Nat.mul_div_cancel_left _ hb]
      have hwc : w = 2 ^ s.toNat * c := by rw [← this, hc]
      rw [hw, hwc]
      ring
    have hbp : 0 < b * 2 ^ s.toNat := by positivity
    have hval : dyVal (roundPair a b) =
        (roundMantissa a (b * 2 ^ s.toNat) : ℚ) * (2 : ℚ) ^ s := by
      simp only [roundPair, ← hs, if_pos h, dyVal]
    rw [hval, roundMantissa_exact _ _ hbp hdvd3]
    have hcast : ((b * 2 ^ s.toNat : ℕ) : ℚ) = (b : ℚ) * (2 : ℚ) ^ s := by
      push_cast
      rw [zpow_toNat_of_nonneg h]
    rw [hcast]
    have h2s : (0 : ℚ) < (2 : ℚ) ^ s := by positivity
    field_simp
    ring
  · have hk : (0 : ℤ) ≤ -s := by omega
    have hdvd4 : b ∣ a * 2 ^ (-s).toNat := Dvd.dvd.mul_right hdvd _
    have hval : dyVal (roundPair a b) =
        (roundMantissa (a * 2 ^ (-s).toNat) b : ℚ) * (2 : ℚ) ^ s := by
      simp only [roundPair, ← hs, if_neg h, dyVal]
    rw [hval, roundMantissa_exact _ _ hb hdvd4]
    have hcast : ((a * 2 ^ (-s).toNat : ℕ) : ℚ) = (a : ℚ) * (2 : ℚ) ^ (-s) := by
      push_cast
      rw [zpow_toNat_of_nonneg hk]
    rw [hcast]
    have hne : (2 : ℚ) ^ s ≠ 0 := by positivity
    rw [zpow_neg]
    field_simp
    ring

/-- Embeds math.Ceil on a nonnegative binary64 value (exact on the
magnitudes involved), as a natural number. -/
def pairCeil (p : ℕ × ℤ) : ℕ :=
  if 0 ≤ p.2 then p.1 * 2 ^ p.2.toNat
  else (p.1 + 2 ^ (-p.2).toNat - 1) / 2 ^ (-p.2).toNat

/-- Embeds math.Floor on a nonnegative binary64 value. -/
def pairFloor (p : ℕ × ℤ) : ℕ :=
  if 0 ≤ p.2 then p.1 * 2 ^ p.2.toNat
  else p.1 / 2 ^ (-p.2).toNat

theorem pairCeil_eq (p : ℕ × ℤ) : (pairCeil p : ℤ) = ⌈dyVal p⌉ := by
  obtain ⟨m, s⟩ := p
  by_cases h : 0 ≤ s
  · have hval : dyVal (m, s) = ((m * 2 ^ s.toNat : ℕ) : ℚ) := by
      simp only [dyVal]
      push_cast
      rw [zpow_toNat_of_nonneg h]
    rw [hval, pairCeil, if_pos h, Int.ceil_natCast]
  · set k := (-s).toNat with hk
    set d := 2 ^ k with hd
    have hd1 : 0 < d := by positivity
    have hdq : (0 : ℚ) < (d : ℚ) := by exact_mod_cast hd1
    have hval : dyVal (m, s) = (m : ℚ) / (d : ℚ) := by
      simp only [dyVal]
      rw [show s = -(k : ℤ) by omega, zpow_neg, zpow_natCast]
      rw [hd]
      push_cast
      ring
    rw [hval, pairCeil, if_neg h]
    set q := (m + d - 1) / d with hq
    symm
    rw [Int.ceil_eq_iff]
    have h1 : d * q + (m + d - 1) % d = m + d - 1 := by
      rw [hq]
      exact Nat.div_add_mod (m + d - 1) d
    have h2 : (m + d - 1) % d < d := Nat.mod_lt _ hd1
    constructor
    · have hq2 : q * d ≤ m + d - 1 := Nat.div_mul_le_self _ _
      have hq2q : (q : ℚ) * d ≤ (m : ℚ) + d - 1 := by
        have hcq : ((q * d : ℕ) : ℚ) ≤ ((m + d - 1 : ℕ) : ℚ) := by exact_mod_cast hq2
        push_cast [Nat.cast_sub (by omega : 1 ≤ m + d)] at hcq
        linarith
      push_cast
      rw [lt_div_iff₀ hdq]
      have hexp : ((q : ℚ) - 1) * d = (q : ℚ) * d - d := by ring
      linarith
    · have hmq : m ≤ d * q := by omega
      have hcq : (m : ℚ) ≤ (d : ℚ) * q := by exact_mod_cast hmq
      push_cast
      rw [div_le_iff₀ hdq]
      linarith

theorem roundPair_ceil (a b M : ℕ) (ha : 0 < a) (hb : 0 < b) (hM : 0 < M)
    (hdv : b ∣ M * a) (hMlt : M < 2 ^ 24) (hub : (a : ℚ) / b < (2 : ℚ) ^ (30 : ℤ)) :
    (pairCeil (roundPair a b) : ℤ) = ⌈(a : ℚ) / b⌉ := by
  have hbq : (0 : ℚ) < (b : ℚ) := by exact_mod_cast hb
  have hMq : (0 : ℚ) < (M : ℚ) := by exact_mod_cast hM
  rw [pairCeil_eq]
  by_cases hint : b ∣ a
  · have hle : a / b ≤ 2 ^ 53 := by
      have hcd : ((a / b : ℕ) : ℚ) = (a : ℚ) / b := Nat.cast_div hint hbq.ne'
      have : ((a / b : ℕ) : ℚ) < (2 : ℚ) ^ (30 : ℤ) := by rw [hcd]; exact hub
      have hz : (2 : ℚ) ^ (30 : ℤ) = 1073741824 := by norm_num
      rw [hz] at this
      have hlt : a / b < 1073741824 := by exact_mod_cast this
      omega
    rw [roundPair_exact a b ha hb hint hle]
  · set q : ℚ := (a : ℚ) / b with hqdef
    have hqpos : 0 < q := div_pos (by exact_mod_cast ha) hbq
    obtain ⟨hlo, hhi⟩ := ePair_spec a b ha hb
    have he29 : ePair a b ≤ 29 := by
      have hlt : (2 : ℚ) ^ ePair a b < (2 : ℚ) ^ (30 : ℤ) := lt_of_le_of_lt hlo hub
      have := (zpow_lt_zpow_iff_right₀ (by norm_num : (1:ℚ) < 2)).1 hlt
      omega
    have herr := roundPair_err a b ha hb
    have herr2 : |dyVal (roundPair a b) - q| ≤ (2 : ℚ) ^ (-24 : ℤ) :=
      herr.trans (zpow_le_zpow_right₀ (by norm_num : (1:ℚ) ≤ 2) (by omega))
    set k : ℤ := ⌈q⌉ with hk
    have hqlek : q ≤ (k : ℚ) := Int.le_ceil q
    have hklt : (k : ℚ) - 1 < q := by
      have := Int.ceil_lt_add_one q
      push_cast at this ⊢
      linarith
    have hqltk : q < (k : ℚ) := by
      rcases lt_or_eq_of_le hqlek with h | h
      · exact h
      · exfalso
        have hkpos : 0 < k := by
          have : (0 : ℚ) < (k : ℚ) := lt_of_lt_of_le hqpos hqlek
          exact_mod_cast this
        have hab : (a : ℚ) = (b : ℚ) * k := by
          rw [hqdef] at h
          field_simp at h
          linarith
        apply hint
        refine ⟨k.toNat, ?_⟩
        have hq2 : ((k.toNat : ℕ) : ℚ) = (k : ℚ) := by
          exact_mod_cast Int.toNat_of_nonneg hkpos.le
        have hcast : (a : ℚ) = ((b * k.toNat : ℕ) : ℚ) := by
          push_cast
          rw [hq2]
          exact hab
        exact_mod_cast hcast
    have hcq : ((M * a / b : ℕ) : ℚ) = (M : ℚ) * q := by
      rw [Nat.cast_div hdv hbq.ne', hqdef]
      push_cast
      ring
    set c : ℕ := M * a / b with hc
    have hcup : (c : ℤ) < k * M := by
      have hq1 : (c : ℚ) < (k : ℚ) * M := by
        rw [hcq]
        nlinarith
      exact_mod_cast hq1
    have hcdn : (k - 1) * M < (c : ℤ) := by
      have hq2 : ((k : ℚ) - 1) * M < (c : ℚ) := by
        rw [hcq]
        nlinarith
      exact_mod_cast hq2
    have hgap1 : 1 / (M : ℚ) ≤ (k : ℚ) - q := by
      have h1 : (c : ℤ) + 1 ≤ k * M := by omega
      have h1q : (c : ℚ) + 1 ≤ (k : ℚ) * M := by exact_mod_cast h1
      rw [hcq] at h1q
      rw [div_le_iff₀ hMq]
      nlinarith
    have hgap2 : 1 / (M : ℚ) ≤ q - ((k : ℚ) - 1) := by
      have h1 : (k - 1) * M + 1 ≤ (c : ℤ) := by omega
      have h1q : ((k : ℚ) - 1) * M + 1 ≤ (c : ℚ) := by exact_mod_cast h1
      rw [hcq] at h1q
      rw [div_le_iff₀ hMq]
      nlinarith
    have hMgap : (2 : ℚ) ^ (-24 : ℤ) < 1 / M := by
      have h24 : (2 : ℚ) ^ (-24 : ℤ) = 1 / 16777216 := by norm_num
      rw [h24]
      rw [div_lt_div_iff₀ (by norm_num) hMq]
      have : (M : ℚ) < 16777216 := by exact_mod_cast hMlt
      linarith
    obtain ⟨hab1, hab2⟩ := abs_le.1 herr2
    have heps : (2 : ℚ) ^ (-24 : ℤ) = 1 / 16777216 := by norm_num
    rw [heps] at hab1 hab2 hMgap
    refine Int.ceil_eq_iff.mpr ⟨?_, ?_⟩
    · linarith [hab1, hgap2, hMgap]
    · linarith [hab2, hgap1, hMgap]

/-- Embeds float64(n) / 15728640 for n : int64: the conversion rounds n to
binary64, and the division rounds the exact quotient of the rounded
operand and the constant 15 MiB to binary64 again. -/
def flQuot (n : ℕ) : ℕ × ℤ :=
  let p1 := roundPair n 1
  if 0 ≤ p1.2 then roundPair (p1.1 * 2 ^ p1.2.toNat) 15728640
  else roundPair p1.1 (15728640 * 2 ^ (-p1.2).toNat)

/-- Embeds the Go expression int(math.Ceil(float64(fileSize) /
maxChunkSize)) from ChunkedUpload (files.go).  Negative sizes follow from
the sign symmetry of binary64 rounding and Ceil(-x) = -Floor(x). -/
def goTotalChunks (n : ℤ) : ℤ :=
  if 0 < n then (pairCeil (flQuot n.toNat) : ℤ)
  else if n = 0 then 0
  else -(pairFloor (flQuot (-n).toNat) : ℤ)

theorem goTotalChunks_eq_ceil (n : ℤ) (h1 : 0 < n) (h2 : n ≤ 2 ^ 53) :
    goTotalChunks n = ⌈(n : ℚ) / 15728640⌉ := by
  have hnN : ((n.toNat : ℕ) : ℚ) = (n : ℚ) := by
    exact_mod_cast Int.toNat_of_nonneg h1.le
  have hnpos : 0 < n.toNat := by omega
  have hnle : n.toNat ≤ 2 ^ 53 := by omega
  have hnq : (0 : ℚ) < (n.toNat : ℚ) := by exact_mod_cast hnpos
  have hub : ((n.toNat : ℕ) : ℚ) / (15728640 : ℚ) < (2 : ℚ) ^ (30 : ℤ) := by
    rw [div_lt_iff₀ (by norm_num : (0:ℚ) < 15728640)]
    have hle : ((n.toNat : ℕ) : ℚ) ≤ ((2 ^ 53 : ℕ) : ℚ) := by exact_mod_cast hnle
    have : ((2 ^ 53 : ℕ) : ℚ) = 9007199254740992 := by norm_num
    have h30 : (2 : ℚ) ^ (30 : ℤ) = 1073741824 := by norm_num
    rw [h30]
    linarith
  have hexact : dyVal (roundPair n.toNat 1) = (n.toNat : ℚ) := by
    have := roundPair_exact n.toNat 1 hnpos one_pos (one_dvd _) (by omega)
    simpa using this
  have hgoal : (pairCeil (flQuot n.toNat) : ℤ) = ⌈((n.toNat : ℕ) : ℚ) / 15728640⌉ := by
    unfold flQuot
    set p1 := roundPair n.toNat 1 with hp1
    by_cases h : 0 ≤ p1.2
    · rw [if_pos h]
      have hcast : ((p1.1 * 2 ^ p1.2.toNat : ℕ) : ℚ) = (n.toNat : ℚ) := by
        push_cast
        rw [zpow_toNat_of_nonneg h]
        rw [← hexact]
        simp [dyVal]
      have hapos : 0 < p1.1 * 2 ^ p1.2.toNat := by
        by_contra hcon
        have : p1.1 * 2 ^ p1.2.toNat = 0 := by omega
        rw [this] at hcast
        simp at hcast
        exact absurd hcast.symm (ne_of_lt hnq).symm
      rw [roundPair_ceil _ 15728640 15728640 hapos (by norm_num) (by norm_num)
        (dvd_mul_right _ _) (by norm_num) (by rw [hcast]; exact hub)]
      rw [hcast]
      norm_num
    · rw [if_neg h]
      set k := (-p1.2).toNat with hkdef
      have hm : (p1.1 : ℚ) = ((n.toNat * 2 ^ k : ℕ) : ℚ) := by
        have hd : dyVal p1 = (p1.1 : ℚ) * ((2 : ℚ) ^ k)⁻¹ := by
          simp only [dyVal]
          rw [show p1.2 = -(k : ℤ) by omega, zpow_neg, zpow_natCast]
        rw [hexact] at hd
        have h2k : (0 : ℚ) < (2 : ℚ) ^ k := by positivity
        push_cast
        field_simp at hd
        linarith [hd]
      have hmN : p1.1 = n.toNat * 2 ^ k := by exact_mod_cast hm
      have hapos : 0 < p1.1 := by
        rw [hmN]
        positivity
      have hbpos : 0 < 15728640 * 2 ^ k := by positivity
      have hdv : 15728640 * 2 ^ k ∣ 15728640 * p1.1 := by
        rw [hmN]
        exact ⟨n.toNat, by ring⟩
      have hval : (p1.1 : ℚ) / ((15728640 * 2 ^ k : ℕ) : ℚ) = (n.toNat : ℚ) / 15728640 := by
        rw [hm]
        push_cast
        have h2k : (0 : ℚ) < (2 : ℚ) ^ k := by positivity
        field_simp
        ring
      rw [roundPair_ceil _ _ 15728640 hapos hbpos (by norm_num) hdv (by norm_num)
        (by rw [hval]; exact hub)]
      rw [hval]
  rw [show goTotalChunks n = (pairCeil (flQuot n.toNat) : ℤ) by
    unfold goTotalChunks
    rw [if_pos h1]]
  rw [hgoal, hnN]

/-! ## Chunked upload (files.go, ChunkedUpload) -/

/-- Embeds the maxChunkSize constant (files.go): 15 MiB. -/
def maxChunkSize : ℤ := 15 * 1024 * 1024

/-- Embeds Go path.Base: strip trailing slashes and return the last
element; the empty path gives ".", an all-slash path gives "/". -/
def goPathBase (path : String) : String :=
  if path.toList = [] then "."
  else
    let t := (path.toList.reverse.dropWhile (· = '/')).reverse
    if t = [] then "/"
    else String.mk (t.reverse.takeWhile (fun c => c ≠ '/')).reverse

/-- Embeds Go path.Clean: split on '/', drop empty and "." elements,
resolve ".." against preceding elements (or keep it/drop it at the root
depending on rootedness), rejoin. -/
def goPathClean (p : List Char) : List Char :=
  if p = [] then ['.']
  else
    let rooted := p.head? = some '/'
    let segs := splitSlash p
    let out := segs.foldl (fun acc seg =>
      if seg = [] ∨ seg = ['.'] then acc
      else if seg = ['.', '.'] then
        match acc with
        | [] => if rooted then [] else [seg]
        | a :: rest => if a = ['.', '.'] then seg :: a :: rest else rest
      else seg :: acc) []
    let joined := joinSlash out.reverse
    if rooted then '/' :: joined
    else if joined = [] then ['.'] else joined

/-- Embeds Go path.Dir: everything up to and including the final slash,
cleaned. -/
def goPathDir (path : String) : String :=
  String.mk (goPathClean ((path.toList.reverse.dropWhile (fun c => c ≠ '/')).reverse))

/-- One chunk request of the resumable upload protocol: the multipart
fields ChunkedUpload (files.go) sends for one chunk. -/
structure ChunkRequest where
  chunkSizeField : ℤ
  totalSize : ℤ
  identifier : String
  contentType : String
  filename : String
  relativePath : String
  totalChunks : ℤ
  contextTag : String
  contextData : String
  chunkNumber : ℤ
  currentChunkSize : ℤ
deriving DecidableEq

/-- What one chunk upload yields once transport and decoding are folded
in: an HTTP status and, when the body decodes as a File, that record. -/
structure ChunkResponse where
  status : ℤ
  filePayload : Option File
deriving DecidableEq

/-- Embeds the chunk loop of ChunkedUpload (files.go).  The fuel counts
the loop iterations left (chunk runs from 1 while chunk ≤ totalChunks);
exhausting it without the final chunk returning a File is the
"no response from endpoint" error after the loop.  The second component
is the trace of chunk requests submitted, in submission order — the
source sends them strictly sequentially, one at a time. -/
def uploadLoop (send : ChunkRequest → Except Err ChunkResponse)
    (mkReq : ℤ → ℤ → ChunkRequest) (totalChunks : ℤ) :
    ℕ → ℤ → ℤ → Except Err (Option File) × List ChunkRequest
  | 0, _, _ => (.error .noResponse, [])
  | fuel + 1, chunk, remaining =>
    let chunkSize := if remaining < maxChunkSize then remaining else maxChunkSize
    let req := mkReq chunk chunkSize
    match send req with
    | .error e => (.error (.wrapped "chunk upload failed" e), [req])
    | .ok resp =>
      if resp.status ≠ 200 then (.error (.chunkFailed chunk resp.status), [req])
      else if chunk = totalChunks then
        match resp.filePayload with
        | none => (.error .decodeFailure, [req])
        | some file => (.ok (some file), [req])
      else
        let rest := uploadLoop send mkReq totalChunks fuel (chunk + 1) (remaining - chunkSize)
        (rest.1, req :: rest.2)

/-- Embeds client.ChunkedUpload (files.go): derive file name and folder
context from the path, compute the total chunk count with the float64
ceiling, build the constant session fields, and drive the chunk loop.
The session identifier stands for the generated uuid; Go returns (nil,
err) when uuid generation fails, which never yields a (nil, nil) pair, so
that error path is not modelled.  A Go return of (nil, nil) would be
Except.ok none here. -/
def Client.ChunkedUpload (send : ChunkRequest → Except Err ChunkResponse)
    (sessionId : String) (filePath : String) (fileSize : ℤ) :
    Except Err (Option File) × List ChunkRequest :=
  let fileName := goPathBase filePath
  let basePath0 := goPathDir filePath
  let basePath := if basePath0 = "" ∨ basePath0.toList.head? ≠ some '/'
    then String.mk ('/' :: basePath0.toList) else basePath0
  let totalChunks := goTotalChunks fileSize
  let mkReq := fun (chunk chunkSize : ℤ) =>
    { chunkSizeField := maxChunkSize
      totalSize := fileSize
      identifier := sessionId
      contentType := "application/octet-stream"
      filename := fileName
      relativePath := fileName
      totalChunks := totalChunks
      contextTag := "file-storage"
      contextData := basePath
      chunkNumber := chunk
      currentChunkSize := chunkSize : ChunkRequest }
  uploadLoop send mkReq totalChunks totalChunks.toNat 1 fileSize

/-- A backend that accepts every chunk with status 200 and always returns
the finished file record f. -/
def acceptAll (f : File) : ChunkRequest → Except Err ChunkResponse :=
  fun _ => .ok { status := 200, filePayload := some f }

/-- The chunk byte lengths the loop draws from a given remaining count:
a full chunk unless fewer bytes remain. -/
def chunkSizes : ℕ → ℤ → List ℤ
  | 0, _ => []
  | fuel + 1, remaining =>
    let c := if remaining < maxChunkSize then remaining else maxChunkSize
    c :: chunkSizes fuel (remaining - c)

theorem uploadLoop_ne_ok_none (send : ChunkRequest → Except Err ChunkResponse)
    (mkReq : ℤ → ℤ → ChunkRequest) (tc : ℤ) :
    ∀ (fuel : ℕ) (chunk remaining : ℤ),
    (uploadLoop send mkReq tc fuel chunk remaining).1 ≠ .ok none := by
  intro fuel
  induction fuel with
  | zero => intro chunk remaining; simp [uploadLoop]
  | succ k ih =>
    intro chunk remaining
    simp only [uploadLoop]
    rcases hs : send (mkReq chunk (if remaining < maxChunkSize then remaining else maxChunkSize)) with e | resp
    · simp
    · simp only
      by_cases h200 : resp.status ≠ 200
      · simp [if_pos h200]
      · rw [if_neg h200]
        by_cases hlast : chunk = tc
        · rw [if_pos hlast]
          rcases hp : resp.filePayload with _ | file <;> simp
        · rw [if_neg hlast]
          exact ih (chunk + 1) _

theorem uploadLoop_mem (send : ChunkRequest → Except Err ChunkResponse)
    (mkReq : ℤ → ℤ → ChunkRequest) (tc : ℤ) :
    ∀ (fuel : ℕ) (chunk remaining : ℤ) (r : ChunkRequest),
    r ∈ (uploadLoop send mkReq tc fuel chunk remaining).2 → ∃ c s, r = mkReq c s := by
  intro fuel
  induction fuel with
  | zero => intro chunk remaining r hr; simp [uploadLoop] at hr
  | succ k ih =>
    intro chunk remaining r hr
    simp only [uploadLoop] at hr
    set c0 := if remaining < maxChunkSize then remaining else maxChunkSize with hc0
    rcases hs : send (mkReq chunk c0) with e | resp
    · rw [hs] at hr
      simp at hr
      exact ⟨chunk, c0, hr⟩
    · rw [hs] at hr
      simp only at hr
      by_cases h200 : resp.status ≠ 200
      · rw [if_pos h200] at hr
        simp at hr
        exact ⟨chunk, c0, hr⟩
      · rw [if_neg h200] at hr
        by_cases hlast : chunk = tc
        · rw [if_pos hlast] at hr
          rcases hp : resp.filePayload with _ | file <;> rw [hp] at hr <;> simp at hr <;>
            exact ⟨chunk, c0, hr⟩
        · rw [if_neg hlast] at hr
          simp only [List.mem_cons] at hr
          rcases hr with hr | hr
          · exact ⟨chunk, c0, hr⟩
          · exact ih (chunk + 1) (remaining - c0) r hr

theorem uploadLoop_nums (send : ChunkRequest → Except Err ChunkResponse)
    (mkReq : ℤ → ℤ → ChunkRequest) (tc : ℤ)
    (hmk : ∀ c s, (mkReq c s).chunkNumber = c) :
    ∀ (fuel : ℕ) (chunk remaining : ℤ),
    (uploadLoop send mkReq tc fuel chunk remaining).2.map (fun r => r.chunkNumber)
      = (List.range (uploadLoop send mkReq tc fuel chunk remaining).2.length).map
          (fun i : ℕ => chunk + (i : ℤ)) := by
  intro fuel
  induction fuel with
  | zero => intro chunk remaining; simp [uploadLoop]
  | succ k ih =>
    intro chunk remaining
    simp only [uploadLoop]
    set c0 := if remaining < maxChunkSize then remaining else maxChunkSize with hc0
    rcases hs : send (mkReq chunk c0) with e | resp
    · simp [hmk, List.range_succ]
    · simp only
      by_cases h200 : resp.status ≠ 200
      · rw [if_pos h200]
        simp [hmk, List.range_succ]
      · rw [if_neg h200]
        by_cases hlast : chunk = tc
        · rw [if_pos hlast]
          rcases hp : resp.filePayload with _ | file <;> simp [hmk, List.range_succ]
        · rw [if_neg hlast]
          simp only [List.map_cons, List.length_cons, hmk]
          rw [ih (chunk + 1) (remaining - c0)]
          rw [List.range_succ_eq_map, List.map_cons, List.map_map]
          congr 1
          · simp
          · apply List.map_congr_left
            intro i hi
            simp only [Function.comp_apply]
            push_cast
            ring

theorem chunkSizes_length : ∀ (fuel : ℕ) (remaining : ℤ),
    (chunkSizes fuel remaining).length = fuel := by
  intro fuel
  induction fuel with
  | zero => intro remaining; simp [chunkSizes]
  | succ k ih => intro remaining; simp [chunkSizes, ih]

theorem uploadLoop_acceptAll (f : File) (mkReq : ℤ → ℤ → ChunkRequest) (tc : ℤ) :
    ∀ (fuel : ℕ) (chunk remaining : ℤ), 0 < fuel → chunk + (fuel : ℤ) = tc + 1 →
    uploadLoop (acceptAll f) mkReq tc fuel chunk remaining
      = (.ok (some f),
         List.zipWith mkReq
           ((List.range fuel).map (fun i : ℕ => chunk + (i : ℤ)))
           (chunkSizes fuel remaining)) := by
  intro fuel
  induction fuel with
  | zero => intro chunk remaining h0; omega
  | succ k ih =>
    intro chunk remaining h0 hsum
    by_cases hk : k = 0
    · subst hk
      have hchunk : chunk = tc := by push_cast at hsum; omega
      simp only [uploadLoop, acceptAll, chunkSizes]
      rw [if_neg (by norm_num), if_pos hchunk]
      simp [List.range_succ]
    · have hklt : chunk ≠ tc := by
        have : 0 < k := Nat.pos_of_ne_zero hk
        push_cast at hsum
        omega
      simp only [uploadLoop, acceptAll, chunkSizes]
      rw [if_neg (by norm_num), if_neg hklt]
      rw [ih (chunk + 1) _ (Nat.pos_of_ne_zero hk) (by push_cast at hsum ⊢; omega)]
      simp only [Prod.mk.injEq, true_and]
      rw [List.range_succ_eq_map, List.map_cons, List.map_map]
      rw [List.zipWith_cons_cons]
      congr 1
      · simp
      · congr 1
        apply List.map_congr_left
        intro i hi
        simp only [Function.comp_apply]
        push_cast
        ring

theorem chunkSizes_spec : ∀ (fuel : ℕ) (remaining : ℤ), 0 < remaining →
    ((fuel : ℤ) - 1) * maxChunkSize < remaining → remaining ≤ (fuel : ℤ) * maxChunkSize →
    chunkSizes fuel remaining
      = List.replicate (fuel - 1) maxChunkSize
          ++ [remaining - ((fuel : ℤ) - 1) * maxChunkSize] := by
  intro fuel
  induction fuel with
  | zero =>
    intro remaining hpos hlo hhi
    simp only [Nat.cast_zero, zero_mul] at hhi
    omega
  | succ k ih =>
    intro remaining hpos hlo hhi
    by_cases hk : k = 0
    · subst hk
      have hhi2 : remaining ≤ maxChunkSize := by
        push_cast at hhi
        linarith
      simp only [chunkSizes]
      by_cases hlt : remaining < maxChunkSize
      · rw [if_pos hlt]
        simp only [chunkSizes, Nat.add_sub_cancel, List.replicate, List.nil_append]
        push_cast
        norm_num
      · have hre : remaining = maxChunkSize := by omega
        rw [if_neg hlt]
        simp only [chunkSizes, Nat.add_sub_cancel, List.replicate, List.nil_append]
        push_cast
        norm_num
        omega
    · have hkpos : 0 < k := Nat.pos_of_ne_zero hk
      have hmax : ¬remaining < maxChunkSize := by
        have h1 : (1 : ℤ) ≤ (k : ℤ) := by exact_mod_cast hkpos
        have hc : ((k + 1 : ℕ) : ℤ) - 1 = (k : ℤ) := by push_cast; ring
        rw [hc] at hlo
        have hmx : (0 : ℤ) < maxChunkSize := by norm_num [maxChunkSize]
        nlinarith
      simp only [chunkSizes, if_neg hmax]
      rw [ih (remaining - maxChunkSize)
        (by
          have hc : ((k + 1 : ℕ) : ℤ) - 1 = (k : ℤ) := by push_cast; ring
          rw [hc] at hlo
          have h1 : (1 : ℤ) ≤ (k : ℤ) := by exact_mod_cast hkpos
          have hmx : (0 : ℤ) < maxChunkSize := by norm_num [maxChunkSize]
          nlinarith)
        (by
          have hc : ((k + 1 : ℕ) : ℤ) - 1 = (k : ℤ) := by push_cast; ring
          rw [hc] at hlo
          linarith)
        (by push_cast at hhi ⊢; linarith)]
      rw [show (k + 1 - 1 : ℕ) = (k - 1) + 1 by omega, List.replicate_succ, List.cons_append]
      congr 3
      push_cast
      ring

theorem zipWith_currentChunkSize (mkReq : ℤ → ℤ → ChunkRequest)
    (hmk : ∀ c s, (mkReq c s).currentChunkSize = s) :
    ∀ (nums sizes : List ℤ), sizes.length ≤ nums.length →
    (List.zipWith mkReq nums sizes).map (fun r => r.currentChunkSize) = sizes := by
  intro nums
  induction nums with
  | nil =>
    intro sizes h
    rw [List.length_nil, Nat.le_zero, List.length_eq_zero] at h
    simp [h]
  | cons x xs ih =>
    intro sizes h
    cases sizes with
    | nil => simp
    | cons s ss =>
      simp only [List.zipWith_cons_cons, List.map_cons, hmk, List.cons.injEq, true_and]
      exact ih ss (by simpa using h)

theorem ceil_chunk_bounds (n : ℤ) (_h1 : 0 < n) :
    (⌈(n : ℚ) / 15728640⌉ - 1) * maxChunkSize < n ∧
    n ≤ ⌈(n : ℚ) / 15728640⌉ * maxChunkSize := by
  set t := ⌈(n : ℚ) / 15728640⌉ with ht
  have hmq : (0 : ℚ) < 15728640 := by norm_num
  constructor
  · have hlt := Int.ceil_lt_add_one ((n : ℚ) / 15728640)
    have h2 : ((t : ℚ) - 1) < (n : ℚ) / 15728640 := by
      rw [← ht] at hlt
      linarith
    rw [lt_div_iff₀ hmq] at h2
    have h3 : (((t - 1) * maxChunkSize : ℤ) : ℚ) < (n : ℚ) := by
      push_cast [maxChunkSize]
      linarith
    exact_mod_cast h3
  · have hle := Int.le_ceil ((n : ℚ) / 15728640)
    rw [← ht, div_le_iff₀ hmq] at hle
    have h3 : (n : ℚ) ≤ ((t * maxChunkSize : ℤ) : ℚ) := by
      push_cast [maxChunkSize]
      linarith
    exact_mod_cast h3

theorem last_size_eq (n t : ℤ) (h1 : 0 < n) (ht : t = ⌈(n : ℚ) / 15728640⌉) :
    n - (t - 1) * maxChunkSize
      = (if n % maxChunkSize = 0 then maxChunkSize else n % maxChunkSize) := by
  obtain ⟨hlo, hhi⟩ := ceil_chunk_bounds n h1
  rw [← ht] at hlo hhi
  have hmx : (0 : ℤ) < maxChunkSize := by norm_num [maxChunkSize]
  by_cases hdvd : n % maxChunkSize = 0
  · rw [if_pos hdvd]
    obtain ⟨m, hm⟩ : maxChunkSize ∣ n := Int.dvd_of_emod_eq_zero hdvd
    have hm1 : t - 1 < m := by
      have := hlo
      rw [hm] at this
      have h2 : (t - 1) * maxChunkSize < m * maxChunkSize := by linarith [this]
      exact lt_of_mul_lt_mul_right h2 hmx.le
    have hm2 : m ≤ t := by
      have := hhi
      rw [hm] at this
      have h2 : m * maxChunkSize ≤ t * maxChunkSize := by linarith [this]
      exact le_of_mul_le_mul_right h2 hmx
    have hmt : m = t := by omega
    rw [hm, hmt]
    ring
  · rw [if_neg hdvd]
    have hmod := Int.emod_emod_of_dvd n (dvd_refl maxChunkSize)
    have hid : maxChunkSize * (n / maxChunkSize) + n % maxChunkSize = n :=
      Int.ediv_add_emod n maxChunkSize
    have hr0 : 0 ≤ n % maxChunkSize := Int.emod_nonneg n hmx.ne'
    have hrlt : n % maxChunkSize < maxChunkSize := Int.emod_lt_of_pos n hmx
    set d := n / maxChunkSize with hd
    set r := n % maxChunkSize with hr
    have hrpos : 0 < r := by omega
    have htd1 : t - 1 ≤ d := by
      have h2 : (t - 1) * maxChunkSize < maxChunkSize * d + maxChunkSize := by linarith
      have h3 : (t - 1) * maxChunkSize < (d + 1) * maxChunkSize := by linarith [h2]
      have := lt_of_mul_lt_mul_right h3 hmx.le
      omega
    have htd2 : d ≤ t - 1 := by
      have h2 : d * maxChunkSize < t * maxChunkSize := by linarith
      have := lt_of_mul_lt_mul_right h2 hmx.le
      omega
    have htd : t - 1 = d := by omega
    rw [htd]
    linarith

/-- Run of ChunkedUpload against a fully accepting backend, for sizes in
the range where the float64 chunk count is exact: the call succeeds with
the decoded file, and the submitted chunk lengths are exactly the loop's
chunk-size schedule. -/
theorem chunkedUpload_acceptAll_run (f : File) (sessionId filePath : String) (n : ℤ)
    (h1 : 0 < n) (h2 : n ≤ 2 ^ 53) :
    (Client.ChunkedUpload (acceptAll f) sessionId filePath n).1 = .ok (some f) ∧
    (Client.ChunkedUpload (acceptAll f) sessionId filePath n).2.map
        (fun r => r.currentChunkSize) = chunkSizes (goTotalChunks n).toNat n ∧
    (Client.ChunkedUpload (acceptAll f) sessionId filePath n).2.length
      = (goTotalChunks n).toNat := by
  have hceil : goTotalChunks n = ⌈(n : ℚ) / 15728640⌉ := goTotalChunks_eq_ceil n h1 h2
  have htpos : 0 < goTotalChunks n := by
    rw [hceil, Int.ceil_pos]
    have : (0 : ℚ) < (n : ℚ) := by exact_mod_cast h1
    positivity
  have hfuel : 0 < (goTotalChunks n).toNat := by omega
  have hsum1 : (1 : ℤ) + ((goTotalChunks n).toNat : ℤ) = goTotalChunks n + 1 := by omega
  have hrun := uploadLoop_acceptAll f
    (fun (chunk chunkSize : ℤ) =>
      { chunkSizeField := maxChunkSize
        totalSize := n
        identifier := sessionId
        contentType := "application/octet-stream"
        filename := goPathBase filePath
        relativePath := goPathBase filePath
        totalChunks := goTotalChunks n
        contextTag := "file-storage"
        contextData :=
          if goPathDir filePath = "" ∨ (goPathDir filePath).toList.head? ≠ some '/'
          then String.mk ('/' :: (goPathDir filePath).toList) else goPathDir filePath
        chunkNumber := chunk
        currentChunkSize := chunkSize : ChunkRequest })
    (goTotalChunks n) (goTotalChunks n).toNat 1 n hfuel hsum1
  refine ⟨?_, ?_, ?_⟩
  · simp only [Client.ChunkedUpload]
    rw [hrun]
  · simp only [Client.ChunkedUpload]
    rw [hrun]
    apply zipWith_currentChunkSize
    · intro c s
      rfl
    · rw [chunkSizes_length, List.length_map, List.length_range]
  · simp only [Client.ChunkedUpload]
    rw [hrun]
    simp only [List.length_zipWith, List.length_map, List.length_range, chunkSizes_length,
      min_self]

/-- Claim C4 (amended): for 0 < totalSize ≤ 2 ^ 53 — the range where the
float64 chunk-count computation is exact — the computed totalChunks is the
exact ceiling of totalSize / maxChunkSize, the submitted chunk lengths are
maxChunkSize for every chunk but the last, the last is totalSize mod
maxChunkSize (or a full chunk on an exact multiple), and their sum is
exactly totalSize. -/
theorem c4_chunk_arithmetic (f : File) (sessionId filePath : String) (n : ℤ)
    (h1 : 0 < n) (h2 : n ≤ 2 ^ 53) :
    goTotalChunks n = ⌈(n : ℚ) / ((maxChunkSize : ℤ) : ℚ)⌉ ∧
    (Client.ChunkedUpload (acceptAll f) sessionId filePath n).2.map
        (fun r => r.currentChunkSize)
      = List.replicate ((goTotalChunks n).toNat - 1) maxChunkSize
          ++ [if n % maxChunkSize = 0 then maxChunkSize else n % maxChunkSize] ∧
    ((Client.ChunkedUpload (acceptAll f) sessionId filePath n).2.map
        (fun r => r.currentChunkSize)).sum = n ∧
    (Client.ChunkedUpload (acceptAll f) sessionId filePath n).2.length
      = (goTotalChunks n).toNat := by
  have hcast : ((maxChunkSize : ℤ) : ℚ) = 15728640 := by norm_num [maxChunkSize]
  have hceil : goTotalChunks n = ⌈(n : ℚ) / 15728640⌉ := goTotalChunks_eq_ceil n h1 h2
  obtain ⟨hres, hsizes, hlen⟩ := chunkedUpload_acceptAll_run f sessionId filePath n h1 h2
  have htpos : 0 < goTotalChunks n := by
    rw [hceil, Int.ceil_pos]
    have : (0 : ℚ) < (n : ℚ) := by exact_mod_cast h1
    positivity
  have htN : (((goTotalChunks n).toNat : ℕ) : ℤ) = goTotalChunks n := by omega
  have hbounds := ceil_chunk_bounds n h1
  rw [← hceil] at hbounds
  have hspec := chunkSizes_spec (goTotalChunks n).toNat n h1
    (by rw [htN]; exact hbounds.1) (by rw [htN]; exact hbounds.2)
  have hlast := last_size_eq n (goTotalChunks n) h1 hceil
  refine ⟨by rw [hcast]; exact hceil, ?_, ?_, hlen⟩
  · rw [hsizes, hspec, htN, hlast]
  · rw [hsizes, hspec]
    rw [List.sum_append, List.sum_replicate]
    simp only [List.sum_cons, List.sum_nil, add_zero]
    have hc2 : (((goTotalChunks n).toNat - 1 : ℕ) : ℤ) = goTotalChunks n - 1 := by omega
    rw [htN, nsmul_eq_mul, hc2]
    ring

/-- Claim C4, counterexample to the claim as stated: at
totalSize = 15728640 * 600000000 + 1 (about 9.4 PB, a legal int64) the
float64 computation rounds the size down before dividing, so the computed
totalChunks is 600000000 while the exact ceiling is 600000001 — the final
byte would never be sent. -/
theorem c4_total_chunks_float_counterexample :
    goTotalChunks 9437184000000001 ≠ ⌈(9437184000000001 : ℚ) / ((maxChunkSize : ℤ) : ℚ)⌉ ∧
    goTotalChunks 9437184000000001 = 600000000 ∧
    (9437184000000001 : ℤ) = 15728640 * 600000000 + 1 ∧
    ⌈(9437184000000001 : ℚ) / ((maxChunkSize : ℤ) : ℚ)⌉ = 600000001 := by
  have hcast : ((maxChunkSize : ℤ) : ℚ) = 15728640 := by norm_num [maxChunkSize]
  have hgo : goTotalChunks 9437184000000001 = 600000000 := by decide
  have hceil : ⌈(9437184000000001 : ℚ) / ((maxChunkSize : ℤ) : ℚ)⌉ = 600000001 := by
    rw [hcast]
    rw [Int.ceil_eq_iff]
    constructor
    · push_cast
      rw [lt_div_iff₀ (by norm_num : (0:ℚ) < 15728640)]
      norm_num
    · push_cast
      rw [div_le_iff₀ (by norm_num : (0:ℚ) < 15728640)]
      norm_num
  refine ⟨?_, hgo, by norm_num, hceil⟩
  rw [hgo, hceil]
  norm_num

/-- Claim C4, witness at the specification's example size 20 MiB: two
chunks, 15 MiB then 5 MiB, summing to the total. -/
theorem c4_chunk_arithmetic_witness :
    (0 : ℤ) < 20971520 ∧ (20971520 : ℤ) ≤ 2 ^ 53 ∧
    (goTotalChunks 20971520 = ⌈(20971520 : ℚ) / ((maxChunkSize : ℤ) : ℚ)⌉ ∧
     (Client.ChunkedUpload (acceptAll xFile) "session" "/up/f.bin" 20971520).2.map
         (fun r => r.currentChunkSize)
       = List.replicate ((goTotalChunks 20971520).toNat - 1) maxChunkSize
           ++ [if (20971520 : ℤ) % maxChunkSize = 0 then maxChunkSize
               else (20971520 : ℤ) % maxChunkSize] ∧
     ((Client.ChunkedUpload (acceptAll xFile) "session" "/up/f.bin" 20971520).2.map
         (fun r => r.currentChunkSize)).sum = 20971520 ∧
     (Client.ChunkedUpload (acceptAll xFile) "session" "/up/f.bin" 20971520).2.length
       = (goTotalChunks 20971520).toNat) :=
  ⟨by norm_num, by norm_num,
    c4_chunk_arithmetic xFile "session" "/up/f.bin" 20971520 (by norm_num) (by norm_num)⟩

/-- Claim C5: in one ChunkedUpload call the submitted resumableChunkNumber
values are exactly 1, 2, ... in order with no gaps or repeats (for any
backend behaviour the trace is the consecutive range starting at 1, and
against an accepting backend its length is exactly totalChunks); every
request carries the same session identifier, declared total size, declared
chunk size and total chunk count.  Submission is sequential by
construction: the loop embeds the source's single-threaded for-loop, so at
most one chunk is in flight at a time. -/
theorem c5_chunk_sequence :
    (∀ (send : ChunkRequest → Except Err ChunkResponse) (sessionId filePath : String)
        (n : ℤ),
      (Client.ChunkedUpload send sessionId filePath n).2.map (fun r => r.chunkNumber)
        = (List.range (Client.ChunkedUpload send sessionId filePath n).2.length).map
            (fun i : ℕ => 1 + (i : ℤ))) ∧
    (∀ (send : ChunkRequest → Except Err ChunkResponse) (sessionId filePath : String)
        (n : ℤ) (r : ChunkRequest),
      r ∈ (Client.ChunkedUpload send sessionId filePath n).2 →
      r.identifier = sessionId ∧ r.totalSize = n ∧ r.totalChunks = goTotalChunks n ∧
      r.chunkSizeField = maxChunkSize) ∧
    (∀ (f : File) (sessionId filePath : String) (n : ℤ), 0 < n → n ≤ 2 ^ 53 →
      (Client.ChunkedUpload (acceptAll f) sessionId filePath n).2.length
        = (goTotalChunks n).toNat) := by
  refine ⟨?_, ?_, ?_⟩
  · intro send sessionId filePath n
    simp only [Client.ChunkedUpload]
    exact uploadLoop_nums send _ _ (fun c s => rfl) _ 1 n
  · intro send sessionId filePath n r hr
    simp only [Client.ChunkedUpload] at hr
    obtain ⟨c, s, rfl⟩ := uploadLoop_mem send _ _ _ 1 n r hr
    exact ⟨rfl, rfl, rfl, rfl⟩
  · intro f sessionId filePath n h1 h2
    exact (chunkedUpload_acceptAll_run f sessionId filePath n h1 h2).2.2

/-- Claim C6: ChunkedUpload never pairs a nil File with a nil error: the
result is never Except.ok none; when totalSize is 0 the loop sends no
chunks and the call fails with the explicit "no response from endpoint"
error; and a completed run against an accepting backend returns the file
decoded from the final chunk response. -/
theorem c6_upload_result :
    (∀ (send : ChunkRequest → Except Err ChunkResponse) (sessionId filePath : String)
        (n : ℤ),
      (Client.ChunkedUpload send sessionId filePath n).1 ≠ .ok none) ∧
    (∀ (send : ChunkRequest → Except Err ChunkResponse) (sessionId filePath : String),
      (Client.ChunkedUpload send sessionId filePath 0).1 = .error .noResponse) ∧
    (∀ (f : File) (sessionId filePath : String) (n : ℤ), 0 < n → n ≤ 2 ^ 53 →
      (Client.ChunkedUpload (acceptAll f) sessionId filePath n).1 = .ok (some f)) := by
  refine ⟨?_, ?_, ?_⟩
  · intro send sessionId filePath n
    simp only [Client.ChunkedUpload]
    exact uploadLoop_ne_ok_none send _ _ _ 1 n
  · intro send sessionId filePath
    simp only [Client.ChunkedUpload]
    rw [show goTotalChunks 0 = 0 from by decide]
    rfl
  · intro f sessionId filePath n h1 h2
    exact (chunkedUpload_acceptAll_run f sessionId filePath n h1 h2).1

/-! ## Authentication (auth.go) -/

/-- Embeds AuthResponse (auth.go): username, access token and its expiry,
refresh token and its expiry.  Instants are integers (seconds); the
5-minute grace window is 300. -/
structure AuthResponse where
  username : String
  token : String
  tokenExpiration : ℤ
  refreshToken : String
  refreshTokenExpiration : ℤ
deriving DecidableEq

/-- Embeds Store.Set for the list-backed credential store used in the
model: the newest entry for a username shadows older ones. -/
def storeSet (st : List (String × AuthResponse)) (username : String)
    (auth : AuthResponse) : List (String × AuthResponse) :=
  (username, auth) :: st

/-- Embeds Store.Get: the stored credential for a username, none when
absent (the interface requires nil, nil in that case; store errors are
not exercised by the claims). -/
def storeGet (st : List (String × AuthResponse)) (username : String) :
    Option AuthResponse :=
  (st.find? (fun p => p.1 == username)).map (fun p => p.2)

/-- State of an authManager (auth.go): the in-memory credential and the
optional pluggable store. -/
structure AuthManagerState where
  lastResponse : Option AuthResponse
  store : Option (List (String × AuthResponse))
deriving DecidableEq

/-- Result of a stateful call: success, a returned error, or a Go runtime
panic (nil-pointer dereference). -/
inductive Outcome (α : Type) where
  | ok (a : α)
  | fail (e : Err)
  | crash
deriving DecidableEq

/-- Embeds authManager.Authenticate (auth.go): post the credentials; on
success store the response under the login username when a store is
configured, otherwise in lastResponse.  The oracle folds transport,
status and decode failures into its error. -/
def Authenticate (am : AuthManagerState)
    (authSrv : String → String → String → Except Err AuthResponse)
    (username password twoFactorCode : String) : Except Err AuthManagerState :=
  match authSrv username password twoFactorCode with
  | .error e => .error e
  | .ok response =>
    .ok (match am.store with
      | some st => { am with store := some (storeSet st username response) }
      | none => { am with lastResponse := some response })

/-- Embeds authManager.RefreshToken (auth.go): the request body reads
am.lastResponse.RefreshToken unconditionally — when lastResponse is nil
(as it is in store mode) this dereferences a nil pointer, modelled as
crash.  On success the response is stored under the response's username
when a store is configured, otherwise in lastResponse. -/
def RefreshToken (am : AuthManagerState)
    (refreshSrv : String → Except Err AuthResponse) : Outcome AuthManagerState :=
  match am.lastResponse with
  | none => .crash
  | some last =>
    match refreshSrv last.refreshToken with
    | .error e => .fail e
    | .ok response =>
      .ok (match am.store with
        | some st => { am with store := some (storeSet st response.username response) }
        | none => { am with lastResponse := some response })

/-- Embeds authManager.GetToken (auth.go): read the credential (from the
store keyed by the context username, defaulting to "default", otherwise
from lastResponse); fail with ErrNoToken when absent or empty, with
ErrExpiredRefreshToken when the refresh token has expired; refresh
synchronously when the access token expires within the 300-second grace
window; and finally return the token captured before the refresh.  The
context-value type-assertion error path is not modelled (the username is
already an Option String here). -/
def GetToken (am : AuthManagerState)
    (refreshSrv : String → Except Err AuthResponse) (now : ℤ)
    (ctxUsername : Option String) : Outcome (String × AuthManagerState) :=
  let response := match am.store with
    | some st => storeGet st (ctxUsername.getD "default")
    | none => am.lastResponse
  match response with
  | none => .fail .noToken
  | some resp =>
    if resp.token = "" then .fail .noToken
    else if resp.refreshTokenExpiration < now then .fail .expiredRefreshToken
    else if resp.tokenExpiration < now + 300 then
      match RefreshToken am refreshSrv with
      | .crash => .crash
      | .fail e => .fail (.wrapped "failed to refresh token" e)
      | .ok am2 => .ok (resp.token, am2)
    else .ok (resp.token, am)

def staleCred : AuthResponse :=
  { username := "default", token := "stale", tokenExpiration := 60,
    refreshToken := "r1", refreshTokenExpiration := 100000 }

def freshCred : AuthResponse :=
  { username := "default", token := "fresh", tokenExpiration := 3600,
    refreshToken := "r2", refreshTokenExpiration := 200000 }

def nearExpiryCred : AuthResponse :=
  { username := "default", token := "t0", tokenExpiration := 100,
    refreshToken := "r0", refreshTokenExpiration := 100000 }

/-- A refresh endpoint that always succeeds with freshCred. -/
def refreshSrvOK : String → Except Err AuthResponse := fun _ => .ok freshCred

/-- An authentication endpoint that always succeeds with nearExpiryCred. -/
def authSrvStore : String → String → String → Except Err AuthResponse :=
  fun _ _ _ => .ok nearExpiryCred

def amSingle : AuthManagerState := { lastResponse := some staleCred, store := none }

/-- Claim C1, evaluation at the failing input: at now = 0 the cached
token "stale" expires at 60, inside the 300-second grace window, and the
refresh endpoint succeeds with "fresh" (expiry 3600).  GetToken performs
the refresh — the new state caches freshCred — but returns the
pre-refresh token "stale", whose recorded expiry is below now + 300.  The
claim (and the function's own doc comment, "GetToken ensures the token is
valid and returns it") requires the returned token to be valid for at
least the grace window; the code returns the stale one. -/
theorem c1_getToken_returns_stale_token :
    GetToken amSingle refreshSrvOK 0 none
      = .ok ("stale", { lastResponse := some freshCred, store := none }) ∧
    staleCred.token = "stale" ∧
    staleCred.tokenExpiration < 0 + 300 ∧
    freshCred.token = "fresh" := by
  refine ⟨rfl, rfl, by decide, rfl⟩

def amStore : AuthManagerState := { lastResponse := none, store := some [] }

def amStoreAuthed : AuthManagerState :=
  { lastResponse := none, store := some [("default", nearExpiryCred)] }

/-- Claim C10: in store mode Authenticate writes the credential only to
the store and leaves lastResponse nil; a later GetToken whose stored
access token falls inside the grace window calls RefreshToken, which
dereferences the nil lastResponse to read the refresh token — the run
crashes instead of refreshing the stored credential or returning an
error. -/
theorem c10_store_mode_refresh_crash :
    Authenticate amStore authSrvStore "default" "password" "" = .ok amStoreAuthed ∧
    amStoreAuthed.lastResponse = none ∧
    storeGet [("default", nearExpiryCred)] "default" = some nearExpiryCred ∧
    nearExpiryCred.tokenExpiration < 0 + 300 ∧
    nearExpiryCred.refreshTokenExpiration ≥ 0 ∧
    GetToken amStoreAuthed refreshSrvOK 0 none = .crash := by
  refine ⟨rfl, rfl, rfl, by decide, by decide, rfl⟩

/-! ## Filesystem adapter (fs package: Rename, Mkdir, ReadAt) -/

/-- One request the Rename operation can issue to the backend. -/
inductive FsRequest where
  | moveFolder (folder newParentFolder newFolderName : String)
  | renameFile (fileID newFilename : String)
deriving DecidableEq

def FsRequest.isMove : FsRequest → Bool
  | .moveFolder _ _ _ => true
  | .renameFile _ _ => false

/-- Modelled from the spec: the four-argument client.MoveFolder that
FileSystem.Rename calls is not among the staged source files (files.go
holds a three-argument variant; only the call site is staged).  Per the
specification a move "updates both location and name in one request", so
it is one request carrying the folder, its new parent and its new name,
answered by the server oracle. -/
def Client.MoveFolder (srv : Server) (folder newParentFolder newFolderName : String) :
    Except Err Unit × FsRequest :=
  (srv.moveFolder folder newParentFolder newFolderName,
   .moveFolder folder newParentFolder newFolderName)

/-- Embeds client.RenameFile (files.go): one edit-file request carrying
only the new file name (no folder information). -/
def Client.RenameFile (srv : Server) (fileID name : String) :
    Except Err Unit × FsRequest :=
  (srv.renameFile fileID name, .renameFile fileID name)

/-- Embeds FileSystem.Rename (fs package): resolve the old path; for a
folder, move it with the new parent (empty when the base is unchanged)
and the new leaf name; for a file, rename it to the base name of the new
path.  The second component is the trace of backend requests issued. -/
def FileSystem.Rename (srv : Server) (oldName newName : String) :
    Except Err Unit × List FsRequest :=
  match Client.Find srv oldName with
  | .error e => (.error e, [])
  | .ok (folderRes, fileRes) =>
    let oldBase := (ParsePath oldName).1
    let base := (ParsePath newName).1
    let name := (ParsePath newName).2
    match folderRes with
    | some folder =>
      let newParent := if base ≠ oldBase then base else ""
      let call := Client.MoveFolder srv folder.path newParent name
      (call.1, [call.2])
    | none =>
      match fileRes with
      | some file =>
        let call := Client.RenameFile srv file.id (goPathBase newName)
        (call.1, [call.2])
      | none => (.ok (), [])

/-- Claim C2, counterexample to the claim as stated: renaming the file
/A/x.txt to /B/y.txt changes the parent folder, yet the code issues only
a RenameFile request carrying the new leaf name — no request carries the
new location, so the file is not moved. -/
theorem c2_rename_file_counterexample :
    (ParsePath "/A/x.txt").1 = "/A" ∧
    (ParsePath "/B/y.txt").1 = "/B" ∧
    Client.Find srvFind "/A/x.txt" = .ok (none, some xFile) ∧
    (FileSystem.Rename srvFind "/A/x.txt" "/B/y.txt").2
      = [.renameFile "f1" "y.txt"] ∧
    (FileSystem.Rename srvFind "/A/x.txt" "/B/y.txt").1 = .ok () ∧
    ∀ r ∈ (FileSystem.Rename srvFind "/A/x.txt" "/B/y.txt").2, r.isMove = false := by
  refine ⟨by decide, by decide, rfl, rfl, rfl, ?_⟩
  intro r hr
  rw [show (FileSystem.Rename srvFind "/A/x.txt" "/B/y.txt").2
      = [.renameFile "f1" "y.txt"] from rfl] at hr
  simp only [List.mem_singleton] at hr
  rw [hr]
  rfl

/-- Claim C2 (amended): Rename resolves the old path; a folder is moved
with one MoveFolder request carrying both the new parent (empty when the
parent is unchanged, making it a pure rename) and the new leaf name; a
file is always renamed to the base name of the new path with one
RenameFile request, and a change of parent folder is not applied to
files. -/
theorem c2_rename_contract :
    (∀ (srv : Server) (oldName newName : String) (folder : Folder)
        (fileRes : Option File),
      Client.Find srv oldName = .ok (some folder, fileRes) →
      FileSystem.Rename srv oldName newName
        = (srv.moveFolder folder.path
            (if (ParsePath newName).1 ≠ (ParsePath oldName).1
             then (ParsePath newName).1 else "") (ParsePath newName).2,
           [.moveFolder folder.path
            (if (ParsePath newName).1 ≠ (ParsePath oldName).1
             then (ParsePath newName).1 else "") (ParsePath newName).2])) ∧
    (∀ (srv : Server) (oldName newName : String) (file : File),
      Client.Find srv oldName = .ok (none, some file) →
      FileSystem.Rename srv oldName newName
        = (srv.renameFile file.id (goPathBase newName),
           [.renameFile file.id (goPathBase newName)])) ∧
    (∀ (srv : Server) (oldName newName : String) (e : Err),
      Client.Find srv oldName = .error e →
      FileSystem.Rename srv oldName newName = (.error e, [])) ∧
    FileSystem.Rename srvFind "/A" "/B"
      = (.ok (), [.moveFolder "/A" "" "B"]) ∧
    FileSystem.Rename srvFind "/A/x.txt" "/A/y.txt"
      = (.ok (), [.renameFile "f1" "y.txt"]) := by
  have hfindA : Client.Find srvFind "/A" = .ok (some folderA, none) := by
    rw [find_root srvFind "/A" rootFolder rfl (by decide) (by decide)]
    rfl
  refine ⟨?_, ?_, ?_, ?_, rfl⟩
  · intro srv oldName newName folder fileRes hfind
    simp only [FileSystem.Rename, hfind, Client.MoveFolder]
  · intro srv oldName newName file hfind
    simp only [FileSystem.Rename, hfind, Client.RenameFile]
  · intro srv oldName newName e hfind
    simp only [FileSystem.Rename, hfind]
  · simp only [FileSystem.Rename, hfindA, Client.MoveFolder]
    rfl

/-- Find on a path whose leaf is empty at the root (e.g. "/") returns the
root folder itself. -/
theorem find_root_self (srv : Server) (path : String) (root : Folder)
    (h1 : srv.getFolders = .ok root)
    (h2 : (ParsePath path).1 = "" ∨ (ParsePath path).1 = "/")
    (h3 : (ParsePath path).2 = "") :
    Client.Find srv path = .ok (some root, none) := by
  obtain ⟨rest, hf⟩ := Folder.Flatten_head root
  simp only [Client.Find, if_pos h2, Client.GetFolders, h1, hf, if_pos h3]

/-- Embeds Go path.Join on two elements: empty elements are dropped and
the result is Cleaned; all-empty input gives the empty string. -/
def goPathJoin (a b : String) : String :=
  if a = "" ∧ b = "" then ""
  else if a = "" then String.mk (goPathClean b.toList)
  else if b = "" then String.mk (goPathClean a.toList)
  else String.mk (goPathClean (a.toList ++ '/' :: b.toList))

/-- Embeds client.CreateFolder (files.go): parse the joined path back
into parent and leaf and send one create-folder request carrying that
pair; the second component records the request issued. -/
def Client.CreateFolder (srv : Server) (folder : String) :
    Except Err Folder × (String × String) :=
  (srv.createFolder (ParsePath folder).1 (ParsePath folder).2,
   ((ParsePath folder).1, (ParsePath folder).2))

/-- Embeds FileSystem.Mkdir (fs package): resolve the parent folder; if a
same-named child folder already exists, return nil without any create
request; otherwise create path.Join(parent.Path, leaf).  The second
component is the trace of create-folder requests issued; resolving the
parent to a file leaves the folder pointer nil and the Subfolder call
dereferences it. -/
def FileSystem.Mkdir (srv : Server) (name : String) :
    Outcome Unit × List (String × String) :=
  match Client.Find srv (ParsePath name).1 with
  | .error e => (.fail e, [])
  | .ok (folderRes, _) =>
    match folderRes with
    | none => (.crash, [])
    | some parentFolder =>
      match parentFolder.Subfolder (ParsePath name).2 with
      | some _ => (.ok (), [])
      | none =>
        let call := Client.CreateFolder srv
          (goPathJoin parentFolder.path (ParsePath name).2)
        match call.1 with
        | .error e => (.fail e, [call.2])
        | .ok _ => (.ok (), [call.2])

/-- Claim C8: Mkdir is idempotent — when the resolved parent already has
a same-named child folder it succeeds with no create request; otherwise
it issues exactly one create request for path.Join(parent.Path, leaf)
and mirrors the backend's answer.  Concretely, Mkdir "/A" on the example
tree succeeds silently, while Mkdir "/NEW" issues the create request
("/", "NEW"). -/
theorem c8_mkdir_idempotent :
    (∀ (srv : Server) (name : String) (parentFolder sub : Folder)
        (fileRes : Option File),
      Client.Find srv (ParsePath name).1 = .ok (some parentFolder, fileRes) →
      parentFolder.Subfolder (ParsePath name).2 = some sub →
      FileSystem.Mkdir srv name = (.ok (), [])) ∧
    (∀ (srv : Server) (name : String) (parentFolder : Folder)
        (fileRes : Option File),
      Client.Find srv (ParsePath name).1 = .ok (some parentFolder, fileRes) →
      parentFolder.Subfolder (ParsePath name).2 = none →
      (FileSystem.Mkdir srv name).2
          = [((ParsePath (goPathJoin parentFolder.path (ParsePath name).2)).1,
              (ParsePath (goPathJoin parentFolder.path (ParsePath name).2)).2)] ∧
        (∀ f, srv.createFolder
            (ParsePath (goPathJoin parentFolder.path (ParsePath name).2)).1
            (ParsePath (goPathJoin parentFolder.path (ParsePath name).2)).2
            = .ok f →
          (FileSystem.Mkdir srv name).1 = .ok ()) ∧
        (∀ e, srv.createFolder
            (ParsePath (goPathJoin parentFolder.path (ParsePath name).2)).1
            (ParsePath (goPathJoin parentFolder.path (ParsePath name).2)).2
            = .error e →
          (FileSystem.Mkdir srv name).1 = .fail e)) ∧
    (∀ (srv : Server) (name : String) (e : Err),
      Client.Find srv (ParsePath name).1 = .error e →
      FileSystem.Mkdir srv name = (.fail e, [])) ∧
    FileSystem.Mkdir srvFind "/A" = (.ok (), []) ∧
    FileSystem.Mkdir srvFind "/NEW" = (.fail .noFolder, [("/", "NEW")]) := by
  have hroot : Client.Find srvFind "/" = .ok (some rootFolder, none) :=
    find_root_self srvFind "/" rootFolder rfl (by decide) (by decide)
  refine ⟨?_, ?_, ?_, ?_, ?_⟩
  · intro srv name parentFolder sub fileRes hfind hsub
    simp only [FileSystem.Mkdir, hfind, hsub]
  · intro srv name parentFolder fileRes hfind hsub
    refine ⟨?_, ?_, ?_⟩
    · simp only [FileSystem.Mkdir, hfind, hsub, Client.CreateFolder]
      cases srv.createFolder
          (ParsePath (goPathJoin parentFolder.path (ParsePath name).2)).1
          (ParsePath (goPathJoin parentFolder.path (ParsePath name).2)).2 <;> rfl
    · intro f hcf
      simp only [FileSystem.Mkdir, hfind, hsub, Client.CreateFolder, hcf]
    · intro e hcf
      simp only [FileSystem.Mkdir, hfind, hsub, Client.CreateFolder, hcf]
  · intro srv name e hfind
    simp only [FileSystem.Mkdir, hfind]
  · have h : (ParsePath "/A").1 = "/" := by decide
    simp only [FileSystem.Mkdir, h, hroot]
    rfl
  · have h : (ParsePath "/NEW").1 = "/" := by decide
    simp only [FileSystem.Mkdir, h, hroot]
    rfl

/-! ## Random-access reads (fs package: CraneFile.ReadAt) -/

/-- One network action of the random-access read path. -/
inductive NetEvent where
  | download (id : String)
deriving DecidableEq

/-- The CraneFile state ReadAt touches: the fetched metadata record and
whether the random-access cache handle (readAtStream) is already open. -/
structure CraneFileSt where
  file : File
  readAtStream : Bool
deriving DecidableEq

/-- Modelled from the spec: the read-through cache store is an external
package, not among the staged sources.  Per the specification a cache
entry "maps a file identifier to a local, reusable byte store populated
by exactly one producer (the first reader to request the file)", so Get
hands out the write side exactly when the identifier is new, claiming it;
every later Get for the same identifier returns only the read side.  The
state is the list of claimed identifiers; the Bool says whether the
caller must populate the entry. -/
def readCacheGet (cache : List String) (id : String) : Bool × List String :=
  if id ∈ cache then (false, cache) else (true, id :: cache)

/-- Embeds CraneFile.openReadAtStream (fs package): ask the cache for the
file's entry; when the write side is handed out, open the backend
download (openReadStream) whose contents the deferred copy feeds into the
entry; the read side becomes the readAtStream handle.  The download
oracle stands for client.DownloadFile; the event list records the
downloads opened. -/
def CraneFile.openReadAtStream (download : String → Except Err Unit)
    (cache : List String) (cf : CraneFileSt) :
    Except Err Unit × CraneFileSt × List String × List NetEvent :=
  match readCacheGet cache cf.file.id with
  | (false, cache2) => (.ok (), { cf with readAtStream := true }, cache2, [])
  | (true, cache2) =>
    match download cf.file.id with
    | .error e => (.error e, cf, cache2, [.download cf.file.id])
    | .ok _ =>
      (.ok (), { cf with readAtStream := true }, cache2, [.download cf.file.id])

/-- The observable outcome of one ReadAt call. -/
inductive ReadAtResult where
  | notSupported
  | eofZero
  | delegated (off : Int)
  | err (e : Err)
deriving DecidableEq

/-- Embeds CraneFile.ReadAt (fs package): without a configured cache the
call is unsupported; otherwise the readAtStream handle is opened first if
still nil, and only then is the offset compared against the recorded
size — past-the-end offsets give (0, io.EOF), in-range offsets delegate
to the cache handle.  Returns the outcome, the file state, the cache
state and the network events of this call. -/
def CraneFile.ReadAt (download : String → Except Err Unit)
    (readCache : Option (List String)) (cf : CraneFileSt) (off : Int) :
    ReadAtResult × CraneFileSt × Option (List String) × List NetEvent :=
  match readCache with
  | none => (.notSupported, cf, none, [])
  | some cache =>
    let opened : Except Err Unit × CraneFileSt × List String × List NetEvent :=
      if cf.readAtStream then (.ok (), cf, cache, [])
      else CraneFile.openReadAtStream download cache cf
    match opened with
    | (.error e, cf2, cache2, evs) => (.err e, cf2, some cache2, evs)
    | (.ok _, cf2, cache2, evs) =>
      if off ≥ cf2.file.size then (.eofZero, cf2, some cache2, evs)
      else (.delegated off, cf2, some cache2, evs)

/-- A download oracle that always succeeds. -/
def dlOK : String → Except Err Unit := fun _ => .ok ()

/-- A fresh handle on the example file x.txt (size 3), stream not yet
opened. -/
def cfFresh : CraneFileSt := { file := xFile, readAtStream := false }

/-- Claim C9, counterexample to the claim as stated: the very first
ReadAt on a fresh handle at an offset past the recorded size returns
(0, io.EOF), yet it opens the backend download, because the
end-of-data check runs only after openReadAtStream has populated the
cache. -/
theorem c9_readAt_past_eof_counterexample :
    (3 : Int) ≥ xFile.size ∧
    (CraneFile.ReadAt dlOK (some []) cfFresh 3).1 = .eofZero ∧
    (CraneFile.ReadAt dlOK (some []) cfFresh 3).2.2.2 = [.download "f1"] := by
  refine ⟨by decide, rfl, rfl⟩

/-- Claim C9 (amended): once the readAtStream handle is open, a past-EOF
ReadAt returns end-of-data with no network event and no state change;
when the cache already holds the identifier, opening the handle issues no
download either; only the first access for an unclaimed identifier opens
one download, after which the identifier is claimed and every further
ReadAt on the handle issues no network event — so a download is opened at
most once per identifier, but that first access issues it even when the
offset is past the recorded size. -/
theorem c9_readAt_contract :
    (∀ (download : String → Except Err Unit) (cache : List String)
        (cf : CraneFileSt) (off : Int),
      cf.readAtStream = true → off ≥ cf.file.size →
      CraneFile.ReadAt download (some cache) cf off
        = (.eofZero, cf, some cache, [])) ∧
    (∀ (download : String → Except Err Unit) (cache : List String)
        (cf : CraneFileSt) (off : Int),
      cf.readAtStream = false → cf.file.id ∈ cache →
      (CraneFile.ReadAt download (some cache) cf off).2
          = ({ cf with readAtStream := true }, some cache, []) ∧
        (off ≥ cf.file.size →
          (CraneFile.ReadAt download (some cache) cf off).1 = .eofZero)) ∧
    (∀ (download : String → Except Err Unit) (cache : List String)
        (cf : CraneFileSt) (off : Int),
      cf.readAtStream = false → cf.file.id ∉ cache →
      download cf.file.id = .ok () →
      (CraneFile.ReadAt download (some cache) cf off).2
          = ({ cf with readAtStream := true }, some (cf.file.id :: cache),
             [.download cf.file.id]) ∧
        (off ≥ cf.file.size →
          (CraneFile.ReadAt download (some cache) cf off).1 = .eofZero) ∧
        (∀ off2 : Int,
          (CraneFile.ReadAt download (some (cf.file.id :: cache))
              { cf with readAtStream := true } off2).2.2.2 = [])) ∧
    (∀ (download : String → Except Err Unit) (cf : CraneFileSt) (off : Int),
      CraneFile.ReadAt download none cf off = (.notSupported, cf, none, [])) ∧
    CraneFile.ReadAt dlOK (some ["f1"]) { file := xFile, readAtStream := true } 5
      = (.eofZero, { file := xFile, readAtStream := true }, some ["f1"], []) := by
  refine ⟨?_, ?_, ?_, ?_, rfl⟩
  · intro download cache cf off h1 h2
    simp only [CraneFile.ReadAt, h1, if_true]
    rw [if_pos h2]
  · intro download cache cf off h1 h2
    simp only [CraneFile.ReadAt, h1, Bool.false_eq_true, if_false,
      CraneFile.openReadAtStream, readCacheGet, if_pos h2]
    constructor
    · by_cases hsz : off ≥ cf.file.size
      · rw [if_pos hsz]
      · rw [if_neg hsz]
    · intro hsz
      rw [if_pos hsz]
  · intro download cache cf off h1 h2 h3
    have hmodel : CraneFile.ReadAt download (some cache) cf off
        = if off ≥ cf.file.size then
            (.eofZero, { cf with readAtStream := true },
             some (cf.file.id :: cache), [.download cf.file.id])
          else
            (.delegated off, { cf with readAtStream := true },
             some (cf.file.id :: cache), [.download cf.file.id]) := by
      simp only [CraneFile.ReadAt, h1, Bool.false_eq_true, if_false,
        CraneFile.openReadAtStream, readCacheGet, if_neg h2, h3]
    refine ⟨?_, ?_, ?_⟩
    · rw [hmodel]
      by_cases hsz : off ≥ cf.file.size
      · rw [if_pos hsz]
      · rw [if_neg hsz]
    · intro hsz
      rw [hmodel, if_pos hsz]
    · intro off2
      simp only [CraneFile.ReadAt, if_true]
      by_cases hsz : off2 ≥ cf.file.size
      · rw [if_pos hsz]
      · rw [if_neg hsz]
  · intro download cf off
    rfl
